import Mathlib

/-!
Formal model of the self-describing binary codec (package `wire`) and the
RPC calling layer (package `rpc`) of the blitz-frost/wasm repository.

The codec (`Encoder.EncodeValue` / `Decoder.DecodeValue` in the `wire`
package) drives Go reflection over concrete values.  We embed it shallowly:

* A Go value is a `GoVal`: a scalar kind together with its raw bit pattern,
  a string (byte list), a fixed array, a dynamic slice, a map (association
  list of entries in the encoder's iteration order), a struct (list of
  fields, each tagged with its exportedness), or a value of one of the
  unsupported kinds (pointer, interface, function, channel, uintptr,
  unsafe pointer).
* Scalars are encoded as their raw little-endian memory bytes, exactly the
  `marshalSimple` memory copy of the source; a scalar value is therefore
  represented by its bit pattern (a `Nat` below `2 ^ (8 * size)`), which is
  what the byte-for-byte copy preserves.  The native word size of the
  target (`uintSize` in the source, `4 << (^uint(0) >> 32 & 1)`) is 8 on
  the 64-bit architectures the repository targets (js/wasm and the host).
* The byte stream is a `List Nat`; the `reader` type of `rpc/conn.go`
  never reports errors and leaves unwritten buffer bytes zero, so reads
  past the end of data yield zero bytes rather than failures, and the
  model's `readByte`/`readBytes` do the same.
* Kind tags are the numeric values of `reflect.Kind` (Bool = 1 ... Struct
  = 25), written as the single byte `byte(k)` before each payload.
* Go `reflect` forbids extracting values reached through non-exported
  struct fields: `addressable` (which calls `reflect.Value.Set`) and
  `Value.Interface` panic on such values.  The encoder entry points of
  this repository always start from non-addressable roots
  (`reflect.ValueOf`, function call results), so an encode that reaches a
  non-exported field stops with a panic after the bytes already written.
  The model threads that read-only flag (`ro`) and reports the panic as
  the distinguished error `EncErr.panicUnexported`.
-/

/-- Native word size in bytes: `uintSize = 4 << (^uint(0) >> 32 & 1)` from
the source, which is 8 on the 64-bit targets of this repository. -/
def uintSize : Nat := 8

/-- The scalar (`simpleKinds`) kinds of the codec: booleans, fixed and
native width integers, floats and complex numbers. -/
inductive ScalarKind where
  | bool | int | int8 | int16 | int32 | int64
  | uint | uint8 | uint16 | uint32 | uint64
  | float32 | float64 | complex64 | complex128
deriving DecidableEq

/-- In-memory size in bytes of each scalar kind (`reflect.Type.Size`). -/
def ScalarKind.size : ScalarKind → Nat
  | .bool => 1
  | .int => uintSize
  | .int8 => 1
  | .int16 => 2
  | .int32 => 4
  | .int64 => 8
  | .uint => uintSize
  | .uint8 => 1
  | .uint16 => 2
  | .uint32 => 4
  | .uint64 => 8
  | .float32 => 4
  | .float64 => 8
  | .complex64 => 8
  | .complex128 => 16

/-- The `reflect.Kind` numeric value of each scalar kind, used as the
one-byte kind tag on the wire. -/
def ScalarKind.tag : ScalarKind → Nat
  | .bool => 1
  | .int => 2
  | .int8 => 3
  | .int16 => 4
  | .int32 => 5
  | .int64 => 6
  | .uint => 7
  | .uint8 => 8
  | .uint16 => 9
  | .uint32 => 10
  | .uint64 => 11
  | .float32 => 13
  | .float64 => 14
  | .complex64 => 15
  | .complex128 => 16

/-- The kinds the codec does not support: both `EncodeValue` and
`DecodeValue` fall into their `default` branch on these. -/
inductive UnsupKind where
  | uintptr | chan | fn | iface | ptr | unsafePtr
deriving DecidableEq

/-- The `reflect.Kind` numeric value of each unsupported kind. -/
def UnsupKind.tag : UnsupKind → Nat
  | .uintptr => 12
  | .chan => 18
  | .fn => 19
  | .iface => 20
  | .ptr => 22
  | .unsafePtr => 26

/-- Go types as the decoder sees them: the decode destination shape.
`struct` lists the field types in order (field names are never on the
wire; identity is positional). -/
inductive GoTy where
  | scalar (sk : ScalarKind)
  | array (n : Nat) (elem : GoTy)
  | slice (elem : GoTy)
  | str
  | map (kt vt : GoTy)
  | struct (fields : List GoTy)
  | unsup (k : UnsupKind)

/-- One-byte kind tag of a type (`byte(v.Kind())`): Array = 17, Map = 21,
Slice = 23, String = 24, Struct = 25. -/
def GoTy.kindByte : GoTy → Nat
  | .scalar sk => sk.tag
  | .array _ _ => 17
  | .slice _ => 23
  | .str => 24
  | .map _ _ => 21
  | .struct _ => 25
  | .unsup k => k.tag

/-- Go values.  Maps carry their entries in the iteration order the
encoder would see; structs carry an exportedness flag per field. -/
inductive GoVal where
  | scalar (sk : ScalarKind) (bits : Nat)
  | str (bytes : List Nat)
  | array (elem : GoTy) (xs : List GoVal)
  | slice (elem : GoTy) (xs : List GoVal)
  | map (kt vt : GoTy) (entries : List (GoVal × GoVal))
  | struct (fields : List (Bool × GoVal))
  | unsup (k : UnsupKind)

/-- One-byte kind tag of a value. -/
def GoVal.kindTag : GoVal → Nat
  | .scalar sk _ => sk.tag
  | .str _ => 24
  | .array _ _ => 17
  | .slice _ _ => 23
  | .map _ _ _ => 21
  | .struct _ => 25
  | .unsup k => k.tag

mutual

/-- Boolean equality on types (needed because `GoTy` nests `List`). -/
def beqTy : GoTy → GoTy → Bool
  | .scalar a, .scalar b => a == b
  | .array n e, .array m f => n == m && beqTy e f
  | .slice e, .slice f => beqTy e f
  | .str, .str => true
  | .map k v, .map l w => beqTy k l && beqTy v w
  | .struct fs, .struct gs => beqTys fs gs
  | .unsup a, .unsup b => a == b
  | _, _ => false

termination_by structural a _ => a

def beqTys : List GoTy → List GoTy → Bool
  | [], [] => true
  | t :: ts, u :: us => beqTy t u && beqTys ts us
  | _, _ => false
termination_by structural a _ => a

end

mutual

theorem beqTy_iff : ∀ a b : GoTy, beqTy a b = true ↔ a = b
  | .scalar a, b => by cases b <;> simp [beqTy]
  | .array n e, b => by
    cases b <;> simp [beqTy]
    exact fun _ => beqTy_iff e _
  | .slice e, b => by
    cases b <;> simp [beqTy]
    exact beqTy_iff e _
  | .str, b => by cases b <;> simp [beqTy]
  | .map k v, b => by
    cases b <;> simp [beqTy, beqTy_iff k, beqTy_iff v]
  | .struct fs, b => by
    cases b <;> simp [beqTy]
    exact beqTys_iff fs _
  | .unsup a, b => by cases b <;> simp [beqTy]

theorem beqTys_iff : ∀ as bs : List GoTy, beqTys as bs = true ↔ as = bs
  | [], [] => by simp [beqTys]
  | [], _ :: _ => by simp [beqTys]
  | _ :: _, [] => by simp [beqTys]
  | t :: ts, u :: us => by
    simp [beqTys, beqTy_iff t u, beqTys_iff ts us]

end

instance : DecidableEq GoTy := fun a b =>
  decidable_of_iff (beqTy a b = true) (beqTy_iff a b)

mutual

/-- Boolean equality on values (`GoVal` nests `List`, so this is manual).
On scalars it compares bit patterns, which is what the memory-copying
codec preserves. -/
def beqVal : GoVal → GoVal → Bool
  | .scalar sk a, .scalar sl b => sk == sl && a == b
  | .str a, .str b => a == b
  | .array e xs, .array f ys => beqTy e f && beqValList xs ys
  | .slice e xs, .slice f ys => beqTy e f && beqValList xs ys
  | .map k v es, .map l w fs => beqTy k l && beqTy v w && beqValPairs es fs
  | .struct fs, .struct gs => beqValFields fs gs
  | .unsup a, .unsup b => a == b
  | _, _ => false

termination_by structural a _ => a

def beqValList : List GoVal → List GoVal → Bool
  | [], [] => true
  | x :: xs, y :: ys => beqVal x y && beqValList xs ys
  | _, _ => false
termination_by structural a _ => a

def beqValPairs : List (GoVal × GoVal) → List (GoVal × GoVal) → Bool
  | [], [] => true
  | (k, v) :: es, (l, w) :: fs => beqVal k l && beqVal v w && beqValPairs es fs
  | _, _ => false
termination_by structural a _ => a

def beqValFields : List (Bool × GoVal) → List (Bool × GoVal) → Bool
  | [], [] => true
  | (e, v) :: fs, (f, w) :: gs => e == f && beqVal v w && beqValFields fs gs
  | _, _ => false
termination_by structural a _ => a

end

mutual

theorem beqVal_iff : ∀ a b : GoVal, beqVal a b = true ↔ a = b
  | .scalar sk a, b => by cases b <;> simp [beqVal]
  | .str a, b => by cases b <;> simp [beqVal]
  | .array e xs, b => by
    cases b <;> simp [beqVal, beqTy_iff]
    intro h
    subst h
    exact beqValList_iff xs _
  | .slice e xs, b => by
    cases b <;> simp [beqVal, beqTy_iff]
    intro h
    subst h
    exact beqValList_iff xs _
  | .map k v es, b => by
    cases b <;> simp [beqVal, beqTy_iff, beqValPairs_iff es, and_assoc]
  | .struct fs, b => by
    cases b <;> simp [beqVal]
    exact beqValFields_iff fs _
  | .unsup a, b => by cases b <;> simp [beqVal]

theorem beqValList_iff : ∀ as bs : List GoVal, beqValList as bs = true ↔ as = bs
  | [], [] => by simp [beqValList]
  | [], _ :: _ => by simp [beqValList]
  | _ :: _, [] => by simp [beqValList]
  | x :: xs, y :: ys => by
    simp [beqValList, beqVal_iff x y, beqValList_iff xs ys]

theorem beqValPairs_iff : ∀ as bs : List (GoVal × GoVal), beqValPairs as bs = true ↔ as = bs
  | [], [] => by simp [beqValPairs]
  | [], _ :: _ => by simp [beqValPairs]
  | _ :: _, [] => by simp [beqValPairs]
  | (k, v) :: es, (l, w) :: fs => by
    simp [beqValPairs, Prod.ext_iff, beqVal_iff k l, beqVal_iff v w,
      beqValPairs_iff es fs]

theorem beqValFields_iff : ∀ as bs : List (Bool × GoVal), beqValFields as bs = true ↔ as = bs
  | [], [] => by simp [beqValFields]
  | [], _ :: _ => by simp [beqValFields]
  | _ :: _, [] => by simp [beqValFields]
  | (e, v) :: fs, (f, w) :: gs => by
    simp [beqValFields, Prod.ext_iff, beqVal_iff v w, beqValFields_iff fs gs]

end

instance : DecidableEq GoVal := fun a b =>
  decidable_of_iff (beqVal a b = true) (beqVal_iff a b)

/-- Little-endian bytes of the low `k` bytes of `n`: the raw memory image
that `marshalInt`/`marshalSimple` copy on a little-endian target. -/
def toLE : Nat → Nat → List Nat
  | 0, _ => []
  | k + 1, n => n % 256 :: toLE k (n / 256)

/-- Reassemble a little-endian byte list into a number (the in-memory
reinterpretation performed by `decodeInt` and the scalar decode path). -/
def fromLE : List Nat → Nat
  | [] => 0
  | b :: bs => b + 256 * fromLE bs

/-- Read one byte.  The `reader` of `rpc/conn.go` returns no errors and
reads into zero-initialized buffers, so reading past the end of data
yields the zero byte. -/
def readByte : List Nat → Nat × List Nat
  | [] => (0, [])
  | b :: s => (b, s)

/-- Read `k` bytes, zero-padded past the end of data (reads go through
`make([]byte, k)` buffers which stay zero where `Read` writes nothing). -/
def readBytes : Nat → List Nat → List Nat × List Nat
  | 0, s => ([], s)
  | k + 1, [] => (List.replicate (k + 1) 0, [])
  | k + 1, b :: s =>
    let r := readBytes k s
    (b :: r.1, r.2)

/-- `Encoder.encodeInt`: the native-width memory bytes of an int. -/
def encInt (n : Nat) : List Nat := toLE uintSize n

/-- `Decoder.decodeInt`: read `uintSize` bytes and reinterpret. -/
def readInt (s : List Nat) : Nat × List Nat :=
  let r := readBytes uintSize s
  (fromLE r.1, r.2)

theorem toLE_length : ∀ k n, (toLE k n).length = k := by
  intro k
  induction k with
  | zero => intro n; simp [toLE]
  | succ k ih => intro n; simp [toLE, ih]

theorem fromLE_toLE : ∀ k n, fromLE (toLE k n) = n % 256 ^ k := by
  intro k
  induction k with
  | zero => intro n; simp [toLE, fromLE, Nat.mod_one]
  | succ k ih =>
    intro n
    simp only [toLE, fromLE, ih]
    rw [show (256 : ℕ) ^ (k + 1) = 256 * 256 ^ k by ring, Nat.mod_mul]

theorem readBytes_append : ∀ (l s : List Nat), readBytes l.length (l ++ s) = (l, s) := by
  intro l
  induction l with
  | nil => intro s; simp [readBytes]
  | cons b bs ih => intro s; simp [readBytes, ih]

theorem readInt_encInt (n : Nat) (h : n < 2 ^ (8 * uintSize)) (s : List Nat) :
    readInt (encInt n ++ s) = (n, s) := by
  have hl : (toLE uintSize n).length = uintSize := toLE_length uintSize n
  have : readBytes uintSize (toLE uintSize n ++ s) = (toLE uintSize n, s) := by
    conv_lhs => rw [← hl]
    exact readBytes_append (toLE uintSize n) s
  simp only [readInt, encInt, this, fromLE_toLE]
  congr 1
  have : (256 : Nat) ^ uintSize = 2 ^ (8 * uintSize) := by
    rw [Nat.pow_mul]
  rw [this]
  exact Nat.mod_eq_of_lt h

theorem toLE_lt (k n : Nat) : ∀ b ∈ toLE k n, b < 256 := by
  induction k generalizing n with
  | zero => simp [toLE]
  | succ k ih =>
    intro b hb
    simp only [toLE, List.mem_cons] at hb
    rcases hb with h | h
    · omega
    · exact ih _ b h

/-- Errors the encoder can stop with: the `unsupported type` error of the
`default` branch, or the `reflect` panic raised when a value reached
through a non-exported field is extracted. -/
inductive EncErr where
  | unsupportedType
  | panicUnexported
deriving DecidableEq

mutual

/-- `Encoder.EncodeValue`.  Writes the one-byte kind tag, then dispatches
on the kind, returning the bytes written (even on failure — the tag is
on the stream before the dispatch) and the failure, if any.  `ro` is the
reflect read-only flag: set once a non-exported field is crossed, it
makes `addressable` (scalars, arrays, slices — called before anything
else of the payload is written) and `Value.Interface` (strings — called
after the length is written) panic.  Map contents inherit the flag;
struct fields add it when not exported. -/
def encodeValue (ro : Bool) : GoVal → List Nat × Option EncErr
  | .scalar sk bits =>
    if ro then ([sk.tag], some .panicUnexported)
    else (sk.tag :: toLE sk.size bits, none)
  | .str bs =>
    if ro then (24 :: encInt bs.length, some .panicUnexported)
    else (24 :: encInt bs.length ++ bs, none)
  | .array _ xs =>
    if ro then ([17], some .panicUnexported)
    else
      let r := encodeList false xs
      (17 :: encInt xs.length ++ r.1, r.2)
  | .slice _ xs =>
    if ro then ([23], some .panicUnexported)
    else
      let r := encodeList false xs
      (23 :: encInt xs.length ++ r.1, r.2)
  | .map _ _ es =>
    let r := encodePairs ro es
    (21 :: encInt es.length ++ r.1, r.2)
  | .struct fs =>
    let r := encodeFields ro fs
    (25 :: encInt fs.length ++ r.1, r.2)
  | .unsup k => ([k.tag], some .unsupportedType)

/-- Encode array/slice elements in order, stopping at the first failure. -/
def encodeList (ro : Bool) : List GoVal → List Nat × Option EncErr
  | [] => ([], none)
  | x :: xs =>
    let r := encodeValue ro x
    match r.2 with
    | some e => (r.1, some e)
    | none =>
      let rs := encodeList ro xs
      (r.1 ++ rs.1, rs.2)

/-- Encode map entries as key then value, in iteration order. -/
def encodePairs (ro : Bool) : List (GoVal × GoVal) → List Nat × Option EncErr
  | [] => ([], none)
  | (k, v) :: es =>
    let rk := encodeValue ro k
    match rk.2 with
    | some e => (rk.1, some e)
    | none =>
      let rv := encodeValue ro v
      match rv.2 with
      | some e => (rk.1 ++ rv.1, some e)
      | none =>
        let rs := encodePairs ro es
        (rk.1 ++ rv.1 ++ rs.1, rs.2)

/-- Encode struct fields positionally; a non-exported field sets the
read-only flag for its subtree. -/
def encodeFields (ro : Bool) : List (Bool × GoVal) → List Nat × Option EncErr
  | [] => ([], none)
  | (exported, v) :: fs =>
    let r := encodeValue (ro || !exported) v
    match r.2 with
    | some e => (r.1, some e)
    | none =>
      let rs := encodeFields ro fs
      (r.1 ++ rs.1, rs.2)

end

/-- Errors of `Decoder.DecodeValue` (the `not a pointer` / `nil pointer`
destination errors cannot arise here: the model takes the pointee type
directly, as every call site of the repository passes a valid non-nil
pointer). -/
inductive DecErr where
  | incompatibleValue
  | unsupportedType
  | arrayLengthMismatch
  | fieldCountMismatch
deriving DecidableEq

/-- Run an element decoder `n` times, threading the stream. -/
def decodeN (dec : List Nat → Except DecErr (GoVal × List Nat)) :
    Nat → List Nat → Except DecErr (List GoVal × List Nat)
  | 0, s => .ok ([], s)
  | n + 1, s =>
    match dec s with
    | .error e => .error e
    | .ok (v, s') =>
      match decodeN dec n s' with
      | .error e => .error e
      | .ok (vs, s'') => .ok (v :: vs, s'')

/-- Run a key decoder then a value decoder, `n` times. -/
def decodePairsN (decK decV : List Nat → Except DecErr (GoVal × List Nat)) :
    Nat → List Nat → Except DecErr (List (GoVal × GoVal) × List Nat)
  | 0, s => .ok ([], s)
  | n + 1, s =>
    match decK s with
    | .error e => .error e
    | .ok (k, s') =>
      match decV s' with
      | .error e => .error e
      | .ok (v, s'') =>
        match decodePairsN decK decV n s'' with
        | .error e => .error e
        | .ok (es, s''') => .ok ((k, v) :: es, s''')

/-- `reflect.Value.SetMapIndex`: overwrite the entry with an equal key, or
add a new entry. -/
def mapInsert : List (GoVal × GoVal) → GoVal → GoVal → List (GoVal × GoVal)
  | [], k, v => [(k, v)]
  | (k', v') :: es, k, v =>
    if beqVal k' k then (k', v) :: es else (k', v') :: mapInsert es k v

/-- Build a map by inserting decoded entries in decode order into a fresh
empty map (`reflect.MakeMap`). -/
def mapFromPairs (es : List (GoVal × GoVal)) : List (GoVal × GoVal) :=
  es.foldl (fun acc p => mapInsert acc p.1 p.2) []

mutual

/-- `Decoder.DecodeValue` on a destination of type `ty`.  Reads the kind
tag and fails with `incompatible value` unless it equals the
destination's kind; then dispatches: scalars read their exact memory
size; arrays check the count against the static length (`missmatching
array length`); slices allocate fresh; strings read length then bytes;
maps decode into a fresh empty map; structs check the field count
(`field count missmatch`) and decode positionally; unsupported kinds
fail (`unsupported type`). -/
def decodeValue : GoTy → List Nat → Except DecErr (GoVal × List Nat)
  | .scalar sk, s =>
    match readByte s with
    | (b, s1) =>
      if b = sk.tag then
        match readBytes sk.size s1 with
        | (bs, s2) => .ok (.scalar sk (fromLE bs), s2)
      else .error .incompatibleValue
  | .array n elem, s =>
    match readByte s with
    | (b, s1) =>
      if b = 17 then
        match readInt s1 with
        | (m, s2) =>
          if m = n then
            match decodeN (decodeValue elem) m s2 with
            | .error e => .error e
            | .ok (xs, s3) => .ok (.array elem xs, s3)
          else .error .arrayLengthMismatch
      else .error .incompatibleValue
  | .slice elem, s =>
    match readByte s with
    | (b, s1) =>
      if b = 23 then
        match readInt s1 with
        | (m, s2) =>
          match decodeN (decodeValue elem) m s2 with
          | .error e => .error e
          | .ok (xs, s3) => .ok (.slice elem xs, s3)
      else .error .incompatibleValue
  | .str, s =>
    match readByte s with
    | (b, s1) =>
      if b = 24 then
        match readInt s1 with
        | (m, s2) =>
          match readBytes m s2 with
          | (bs, s3) => .ok (.str bs, s3)
      else .error .incompatibleValue
  | .map kt vt, s =>
    match readByte s with
    | (b, s1) =>
      if b = 21 then
        match readInt s1 with
        | (m, s2) =>
          match decodePairsN (decodeValue kt) (decodeValue vt) m s2 with
          | .error e => .error e
          | .ok (es, s3) => .ok (.map kt vt (mapFromPairs es), s3)
      else .error .incompatibleValue
  | .struct tys, s =>
    match readByte s with
    | (b, s1) =>
      if b = 25 then
        match readInt s1 with
        | (m, s2) =>
          if m = tys.length then
            match decodeTys tys s2 with
            | .error e => .error e
            | .ok (vs, s3) => .ok (.struct (vs.map fun v => (true, v)), s3)
          else .error .fieldCountMismatch
      else .error .incompatibleValue
  | .unsup k, s =>
    match readByte s with
    | (b, _) =>
      if b = k.tag then .error .unsupportedType
      else .error .incompatibleValue

/-- Decode one value per type, positionally (struct fields; also the
shape of the RPC server's argument decoding). -/
def decodeTys : List GoTy → List Nat → Except DecErr (List GoVal × List Nat)
  | [], s => .ok ([], s)
  | t :: ts, s =>
    match decodeValue t s with
    | .error e => .error e
    | .ok (v, s') =>
      match decodeTys ts s' with
      | .error e => .error e
      | .ok (vs, s'') => .ok (v :: vs, s'')

end

mutual

/-- The Go type of a value (`reflect.Value.Type`), the shape a matching
decode destination must have. -/
def tyOf : GoVal → GoTy
  | .scalar sk _ => .scalar sk
  | .str _ => .str
  | .array elem xs => .array xs.length elem
  | .slice elem _ => .slice elem
  | .map kt vt _ => .map kt vt
  | .struct fs => .struct (tyOfFields fs)
  | .unsup k => .unsup k
termination_by structural v => v

def tyOfFields : List (Bool × GoVal) → List GoTy
  | [] => []
  | (_, v) :: fs => tyOf v :: tyOfFields fs
termination_by structural a => a

end

/-- Does the entry list contain the key (Go map key equality)? -/
def hasKey (es : List (GoVal × GoVal)) (k : GoVal) : Bool :=
  es.any fun p => beqVal p.1 k

/-- Go maps never hold two entries with equal keys. -/
def nodupKeys : List (GoVal × GoVal) → Bool
  | [] => true
  | (k, _) :: es => !hasKey es k && nodupKeys es

mutual

/-- Go comparability of types (map keys must be comparable): scalars,
strings, arrays of comparable elements and structs of comparable fields
are comparable; slices and maps are not. -/
def comparableTy : GoTy → Bool
  | .scalar _ => true
  | .str => true
  | .array _ elem => comparableTy elem
  | .slice _ => false
  | .map _ _ => false
  | .struct tys => comparableTys tys
  | .unsup _ => false
termination_by structural t => t

def comparableTys : List GoTy → Bool
  | [] => true
  | t :: ts => comparableTy t && comparableTys ts
termination_by structural a => a

end

mutual

/-- The values the codec supports and this repository can actually
produce: scalar bit patterns within their width, byte lists of bytes,
homogeneous containers of the stated element type, maps without
duplicate keys, structs with only exported fields, every length
representable in a native word, and no unsupported kind anywhere. -/
def supported : GoVal → Bool
  | .scalar sk bits => decide (bits < 2 ^ (8 * sk.size))
  | .str bs => decide (bs.length < 2 ^ (8 * uintSize)) && bs.all fun b => decide (b < 256)
  | .array elem xs => decide (xs.length < 2 ^ (8 * uintSize)) && supportedElems elem xs
  | .slice elem xs => decide (xs.length < 2 ^ (8 * uintSize)) && supportedElems elem xs
  | .map kt vt es =>
    decide (es.length < 2 ^ (8 * uintSize)) && comparableTy kt &&
      supportedPairs kt vt es && nodupKeys es
  | .struct fs => decide (fs.length < 2 ^ (8 * uintSize)) && supportedFields fs
  | .unsup _ => false
termination_by structural v => v

def supportedElems (elem : GoTy) : List GoVal → Bool
  | [] => true
  | x :: xs => supported x && decide (tyOf x = elem) && supportedElems elem xs
termination_by structural a => a

def supportedPairs (kt vt : GoTy) : List (GoVal × GoVal) → Bool
  | [] => true
  | (k, v) :: es =>
    supported k && decide (tyOf k = kt) && supported v && decide (tyOf v = vt) &&
      supportedPairs kt vt es
termination_by structural a => a

def supportedFields : List (Bool × GoVal) → Bool
  | [] => true
  | (e, v) :: fs => e && supported v && supportedFields fs
termination_by structural a => a

end

mutual

/-- The zero value of a type (`reflect.New(t).Elem()`): zero scalars,
empty string, zero-filled arrays, nil slices and maps, zero fields. -/
def zeroVal : GoTy → GoVal
  | .scalar sk => .scalar sk 0
  | .array n elem => .array elem (List.replicate n (zeroVal elem))
  | .slice elem => .slice elem []
  | .str => .str []
  | .map kt vt => .map kt vt []
  | .struct tys => .struct (zeroFields tys)
  | .unsup k => .unsup k
termination_by structural t => t

def zeroFields : List GoTy → List (Bool × GoVal)
  | [] => []
  | t :: ts => (true, zeroVal t) :: zeroFields ts
termination_by structural a => a

end

theorem beqVal_refl (a : GoVal) : beqVal a a = true := (beqVal_iff a a).2 rfl

theorem beqVal_false_of_ne {a b : GoVal} (h : a ≠ b) : beqVal a b = false := by
  cases hb : beqVal a b
  · rfl
  · exact absurd ((beqVal_iff a b).1 hb) h

theorem hasKey_append (a b : List (GoVal × GoVal)) (k : GoVal) :
    hasKey (a ++ b) k = (hasKey a k || hasKey b k) := by
  simp [hasKey, List.any_append]

/-- Inserting a key absent from the map appends the new entry. -/
theorem mapInsert_notMem : ∀ (acc : List (GoVal × GoVal)) (k v : GoVal),
    hasKey acc k = false → mapInsert acc k v = acc ++ [(k, v)] := by
  intro acc
  induction acc with
  | nil => intro k v _; rfl
  | cons p acc ih =>
    intro k v h
    simp only [hasKey, List.any_cons, Bool.or_eq_false_iff] at h
    obtain ⟨h1, h2⟩ := h
    cases p with
    | mk k' v' =>
      simp only [mapInsert, h1, Bool.false_eq_true, if_false, List.cons_append]
      rw [ih k v h2]

theorem foldl_mapInsert : ∀ (es acc : List (GoVal × GoVal)),
    nodupKeys es = true → (∀ p ∈ es, hasKey acc p.1 = false) →
    es.foldl (fun a p => mapInsert a p.1 p.2) acc = acc ++ es := by
  intro es
  induction es with
  | nil => intro acc _ _; simp
  | cons p es ih =>
    intro acc hnd hmem
    cases p with
    | mk k v =>
      simp only [nodupKeys, Bool.and_eq_true, Bool.not_eq_true'] at hnd
      obtain ⟨hk, hnd'⟩ := hnd
      have hacc : hasKey acc k = false := hmem (k, v) (List.mem_cons_self _ _)
      simp only [List.foldl_cons]
      rw [mapInsert_notMem acc k v hacc]
      rw [ih (acc ++ [(k, v)]) hnd']
      · simp
      · intro q hq
        rw [hasKey_append]
        have h1 : hasKey acc q.1 = false := hmem q (List.mem_cons_of_mem _ hq)
        have h2 : hasKey [(k, v)] q.1 = false := by
          simp only [hasKey, List.any_cons, List.any_nil, Bool.or_false]
          apply beqVal_false_of_ne
          intro hkq
          subst hkq
          have : beqVal q.1 q.1 = true := beqVal_refl q.1
          simp only [hasKey] at hk
          rw [List.any_eq_false] at hk
          exact absurd this (by simpa using hk q hq)
        rw [h1, h2]
        rfl

/-- Decoding rebuilds exactly the encoded entry list when the keys are
distinct (as they are in any real Go map). -/
theorem mapFromPairs_nodup (es : List (GoVal × GoVal)) (h : nodupKeys es = true) :
    mapFromPairs es = es := by
  have := foldl_mapInsert es [] h (by intro p _; rfl)
  simpa [mapFromPairs] using this

theorem tyOfFields_length : ∀ fs : List (Bool × GoVal), (tyOfFields fs).length = fs.length := by
  intro fs
  induction fs with
  | nil => rfl
  | cons f fs ih => cases f with | mk e v => simp [tyOfFields, ih]

theorem supportedFields_exported : ∀ fs : List (Bool × GoVal),
    supportedFields fs = true → fs.map (fun f => (true, f.2)) = fs := by
  intro fs
  induction fs with
  | nil => intro _; rfl
  | cons f fs ih =>
    intro h
    cases f with
    | mk e v =>
      simp only [supportedFields, Bool.and_eq_true] at h
      obtain ⟨⟨he, _⟩, hfs⟩ := h
      simp only [List.map_cons, ih hfs]
      rw [he]

theorem fromLE_toLE_of_lt (k n : Nat) (h : n < 2 ^ (8 * k)) : fromLE (toLE k n) = n := by
  rw [fromLE_toLE]
  apply Nat.mod_eq_of_lt
  calc n < 2 ^ (8 * k) := h
    _ = 256 ^ k := by rw [Nat.pow_mul]

theorem readBytes_toLE (k n : Nat) (s : List Nat) :
    readBytes k (toLE k n ++ s) = (toLE k n, s) := by
  have h := readBytes_append (toLE k n) s
  rwa [toLE_length] at h

mutual

/-- Encoding a supported value never fails. -/
theorem encodeValue_ok : ∀ v : GoVal, supported v = true → (encodeValue false v).2 = none
  | .scalar sk bits, _ => by simp [encodeValue]
  | .str bs, _ => by simp [encodeValue]
  | .array elem xs, h => by
    simp only [supported, Bool.and_eq_true] at h
    simp [encodeValue, encodeList_ok elem xs h.2]
  | .slice elem xs, h => by
    simp only [supported, Bool.and_eq_true] at h
    simp [encodeValue, encodeList_ok elem xs h.2]
  | .map kt vt es, h => by
    simp only [supported, Bool.and_eq_true] at h
    simp [encodeValue, encodePairs_ok kt vt es h.1.2]
  | .struct fs, h => by
    simp only [supported, Bool.and_eq_true] at h
    simp [encodeValue, encodeFields_ok fs h.2]
  | .unsup k, h => by simp [supported] at h

theorem encodeList_ok : ∀ (elem : GoTy) (xs : List GoVal),
    supportedElems elem xs = true → (encodeList false xs).2 = none
  | _, [], _ => by simp [encodeList]
  | elem, x :: xs, h => by
    simp only [supportedElems, Bool.and_eq_true] at h
    obtain ⟨⟨hx, _⟩, hxs⟩ := h
    simp [encodeList, encodeValue_ok x hx, encodeList_ok elem xs hxs]

theorem encodePairs_ok : ∀ (kt vt : GoTy) (es : List (GoVal × GoVal)),
    supportedPairs kt vt es = true → (encodePairs false es).2 = none
  | _, _, [], _ => by simp [encodePairs]
  | kt, vt, (k, v) :: es, h => by
    simp only [supportedPairs, Bool.and_eq_true] at h
    obtain ⟨⟨⟨⟨hk, _⟩, hv⟩, _⟩, hes⟩ := h
    simp [encodePairs, encodeValue_ok k hk, encodeValue_ok v hv,
      encodePairs_ok kt vt es hes]

theorem encodeFields_ok : ∀ fs : List (Bool × GoVal),
    supportedFields fs = true → (encodeFields false fs).2 = none
  | [], _ => by simp [encodeFields]
  | (e, v) :: fs, h => by
    simp only [supportedFields, Bool.and_eq_true] at h
    obtain ⟨⟨he, hv⟩, hfs⟩ := h
    subst he
    simp [encodeFields, encodeValue_ok v hv, encodeFields_ok fs hfs]

end

theorem readByte_cons (b : Nat) (s : List Nat) : readByte (b :: s) = (b, s) := rfl

theorem decodeValue_scalar (sk : ScalarKind) (s : List Nat) :
    decodeValue (.scalar sk) (sk.tag :: s) =
      match readBytes sk.size s with
      | (bs, s2) => .ok (.scalar sk (fromLE bs), s2) := by
  unfold decodeValue
  rw [readByte_cons]
  simp only [reduceIte]

theorem decodeValue_str_step {m : Nat} {s1 s2 : List Nat} (hr : readInt s1 = (m, s2)) :
    decodeValue .str (24 :: s1) =
      match readBytes m s2 with
      | (bs, s3) => .ok (.str bs, s3) := by
  unfold decodeValue
  rw [readByte_cons]
  simp only [hr, reduceIte]

theorem decodeValue_array_step {elem : GoTy} {n m : Nat} {s1 s2 : List Nat}
    (hr : readInt s1 = (m, s2)) :
    decodeValue (.array n elem) (17 :: s1) =
      if m = n then
        match decodeN (decodeValue elem) m s2 with
        | .error e => .error e
        | .ok (xs, s3) => .ok (.array elem xs, s3)
      else .error .arrayLengthMismatch := by
  unfold decodeValue
  rw [readByte_cons]
  simp only [hr, reduceIte]

theorem decodeValue_slice_step {elem : GoTy} {m : Nat} {s1 s2 : List Nat}
    (hr : readInt s1 = (m, s2)) :
    decodeValue (.slice elem) (23 :: s1) =
      match decodeN (decodeValue elem) m s2 with
      | .error e => .error e
      | .ok (xs, s3) => .ok (.slice elem xs, s3) := by
  unfold decodeValue
  rw [readByte_cons]
  simp only [hr, reduceIte]

theorem decodeValue_map_step {kt vt : GoTy} {m : Nat} {s1 s2 : List Nat}
    (hr : readInt s1 = (m, s2)) :
    decodeValue (.map kt vt) (21 :: s1) =
      match decodePairsN (decodeValue kt) (decodeValue vt) m s2 with
      | .error e => .error e
      | .ok (es, s3) => .ok (.map kt vt (mapFromPairs es), s3) := by
  unfold decodeValue
  rw [readByte_cons]
  simp only [hr, reduceIte]

theorem decodeValue_struct_step {tys : List GoTy} {m : Nat} {s1 s2 : List Nat}
    (hr : readInt s1 = (m, s2)) :
    decodeValue (.struct tys) (25 :: s1) =
      if m = tys.length then
        match decodeTys tys s2 with
        | .error e => .error e
        | .ok (vs, s3) => .ok (.struct (vs.map fun v => (true, v)), s3)
      else .error .fieldCountMismatch := by
  unfold decodeValue
  rw [readByte_cons]
  simp only [hr, reduceIte]

theorem decodeValue_unsup (k : UnsupKind) (s : List Nat) :
    decodeValue (.unsup k) (k.tag :: s) = .error .unsupportedType := by
  unfold decodeValue
  rw [readByte_cons]
  simp only [reduceIte]

/-- A leading kind tag different from the destination kind always fails
with `incompatible value`, whatever the destination type. -/
theorem decodeValue_tag_mismatch (ty : GoTy) (b : Nat) (s : List Nat)
    (h : b ≠ ty.kindByte) :
    decodeValue ty (b :: s) = .error .incompatibleValue := by
  cases ty <;> simp only [GoTy.kindByte] at h <;>
    (unfold decodeValue; rw [readByte_cons]; simp [h])

mutual

/-- Round trip of the codec: decoding the encoding of a supported value
into a destination of the value's own type rebuilds exactly that value
and leaves trailing bytes untouched. -/
theorem decode_encode : ∀ (v : GoVal) (rest : List Nat), supported v = true →
    decodeValue (tyOf v) ((encodeValue false v).1 ++ rest) = .ok (v, rest)
  | .scalar sk bits, rest, h => by
    simp only [supported, decide_eq_true_eq] at h
    show decodeValue (.scalar sk) ((sk.tag :: toLE sk.size bits) ++ rest) =
      .ok (.scalar sk bits, rest)
    rw [List.cons_append, decodeValue_scalar, readBytes_toLE]
    simp only [fromLE_toLE_of_lt sk.size bits h]
  | .str bs, rest, h => by
    simp only [supported, Bool.and_eq_true, decide_eq_true_eq] at h
    obtain ⟨hlen, _⟩ := h
    show decodeValue .str ((24 :: (encInt bs.length ++ bs)) ++ rest) = .ok (.str bs, rest)
    rw [List.cons_append, List.append_assoc,
      decodeValue_str_step (readInt_encInt bs.length hlen (bs ++ rest)),
      readBytes_append]
  | .array elem xs, rest, h => by
    simp only [supported, Bool.and_eq_true, decide_eq_true_eq] at h
    obtain ⟨hlen, hxs⟩ := h
    show decodeValue (.array xs.length elem)
        ((17 :: (encInt xs.length ++ (encodeList false xs).1)) ++ rest) =
      .ok (.array elem xs, rest)
    rw [List.cons_append, List.append_assoc,
      decodeValue_array_step (readInt_encInt xs.length hlen ((encodeList false xs).1 ++ rest))]
    simp only [eq_self_iff_true, if_true]
    rw [decode_encode_list elem xs rest hxs]
  | .slice elem xs, rest, h => by
    simp only [supported, Bool.and_eq_true, decide_eq_true_eq] at h
    obtain ⟨hlen, hxs⟩ := h
    show decodeValue (.slice elem)
        ((23 :: (encInt xs.length ++ (encodeList false xs).1)) ++ rest) =
      .ok (.slice elem xs, rest)
    rw [List.cons_append, List.append_assoc,
      decodeValue_slice_step (readInt_encInt xs.length hlen ((encodeList false xs).1 ++ rest))]
    rw [decode_encode_list elem xs rest hxs]
  | .map kt vt es, rest, h => by
    simp only [supported, Bool.and_eq_true, decide_eq_true_eq] at h
    obtain ⟨⟨⟨hlen, _⟩, hps⟩, hnd⟩ := h
    show decodeValue (.map kt vt)
        ((21 :: (encInt es.length ++ (encodePairs false es).1)) ++ rest) =
      .ok (.map kt vt es, rest)
    rw [List.cons_append, List.append_assoc,
      decodeValue_map_step (readInt_encInt es.length hlen ((encodePairs false es).1 ++ rest))]
    rw [decode_encode_pairs kt vt es rest hps]
    show Except.ok (GoVal.map kt vt (mapFromPairs es), rest) =
      Except.ok (GoVal.map kt vt es, rest)
    rw [mapFromPairs_nodup es hnd]
  | .struct fs, rest, h => by
    simp only [supported, Bool.and_eq_true, decide_eq_true_eq] at h
    obtain ⟨hlen, hfs⟩ := h
    show decodeValue (.struct (tyOfFields fs))
        ((25 :: (encInt fs.length ++ (encodeFields false fs).1)) ++ rest) =
      .ok (.struct fs, rest)
    rw [List.cons_append, List.append_assoc,
      decodeValue_struct_step (readInt_encInt fs.length hlen ((encodeFields false fs).1 ++ rest))]
    rw [tyOfFields_length]
    simp only [eq_self_iff_true, if_true]
    rw [decode_encode_fields fs rest hfs]
    have hmap : (fs.map Prod.snd).map (fun v => (true, v)) = fs := by
      rw [List.map_map]
      exact supportedFields_exported fs hfs
    show Except.ok (GoVal.struct ((fs.map Prod.snd).map fun v => (true, v)), rest) =
      Except.ok (GoVal.struct fs, rest)
    rw [hmap]
  | .unsup k, rest, h => by simp [supported] at h

theorem decode_encode_list : ∀ (elem : GoTy) (xs : List GoVal) (rest : List Nat),
    supportedElems elem xs = true →
    decodeN (decodeValue elem) xs.length ((encodeList false xs).1 ++ rest) = .ok (xs, rest)
  | _, [], rest, _ => rfl
  | elem, x :: xs, rest, h => by
    simp only [supportedElems, Bool.and_eq_true, decide_eq_true_eq] at h
    obtain ⟨⟨hx, hty⟩, hxs⟩ := h
    subst hty
    have he := encodeValue_ok x hx
    have hbytes : encodeList false (x :: xs) =
        ((encodeValue false x).1 ++ (encodeList false xs).1, (encodeList false xs).2) := by
      simp [encodeList, he]
    rw [hbytes]
    simp only [List.length_cons]
    rw [List.append_assoc]
    simp only [decodeN,
      decode_encode x ((encodeList false xs).1 ++ rest) hx,
      decode_encode_list (tyOf x) xs rest hxs]

theorem decode_encode_pairs : ∀ (kt vt : GoTy) (es : List (GoVal × GoVal)) (rest : List Nat),
    supportedPairs kt vt es = true →
    decodePairsN (decodeValue kt) (decodeValue vt) es.length ((encodePairs false es).1 ++ rest) =
      .ok (es, rest)
  | _, _, [], rest, _ => rfl
  | kt, vt, (k, v) :: es, rest, h => by
    simp only [supportedPairs, Bool.and_eq_true, decide_eq_true_eq] at h
    obtain ⟨⟨⟨⟨hk, hkt⟩, hv⟩, hvt⟩, hes⟩ := h
    subst hkt
    subst hvt
    have hek := encodeValue_ok k hk
    have hev := encodeValue_ok v hv
    have hbytes : encodePairs false ((k, v) :: es) =
        ((encodeValue false k).1 ++ (encodeValue false v).1 ++ (encodePairs false es).1,
          (encodePairs false es).2) := by
      simp [encodePairs, hek, hev]
    rw [hbytes]
    simp only [List.length_cons]
    rw [List.append_assoc, List.append_assoc]
    simp only [decodePairsN,
      decode_encode k ((encodeValue false v).1 ++ ((encodePairs false es).1 ++ rest)) hk,
      decode_encode v ((encodePairs false es).1 ++ rest) hv,
      decode_encode_pairs (tyOf k) (tyOf v) es rest hes]

theorem decode_encode_fields : ∀ (fs : List (Bool × GoVal)) (rest : List Nat),
    supportedFields fs = true →
    decodeTys (tyOfFields fs) ((encodeFields false fs).1 ++ rest) = .ok (fs.map Prod.snd, rest)
  | [], rest, _ => rfl
  | (e, v) :: fs, rest, h => by
    simp only [supportedFields, Bool.and_eq_true] at h
    obtain ⟨⟨he, hv⟩, hfs⟩ := h
    subst he
    have henc := encodeValue_ok v hv
    have hbytes : encodeFields false ((true, v) :: fs) =
        ((encodeValue false v).1 ++ (encodeFields false fs).1, (encodeFields false fs).2) := by
      simp [encodeFields, henc]
    rw [hbytes]
    simp only [tyOfFields, List.map_cons]
    rw [List.append_assoc]
    simp only [decodeTys,
      decode_encode v ((encodeFields false fs).1 ++ rest) hv,
      decode_encode_fields fs rest hfs]

end

mutual

/-- Two values denote the same data up to the iteration order Go used for
map entries: equal scalars, strings and shapes, elementwise-related
containers, and map entry lists that agree up to elementwise relation
followed by a permutation.  This is the "semantic equality" of mappings:
the encoder may emit the entries of the same map in any order. -/
def Reorder : GoVal → GoVal → Prop
  | .scalar sk bits, w => w = .scalar sk bits
  | .str bs, w => w = .str bs
  | .array elem xs, w => ∃ ys, w = .array elem ys ∧ ReorderList xs ys
  | .slice elem xs, w => ∃ ys, w = .slice elem ys ∧ ReorderList xs ys
  | .map kt vt es, w =>
    ∃ mid fs, w = .map kt vt fs ∧ ReorderPairs es mid ∧ mid.Perm fs
  | .struct fs, w => ∃ gs, w = .struct gs ∧ ReorderFields fs gs
  | .unsup k, w => w = .unsup k
termination_by structural a _ => a

def ReorderList : List GoVal → List GoVal → Prop
  | [], ys => ys = []
  | x :: xs, ys => ∃ y ys', ys = y :: ys' ∧ Reorder x y ∧ ReorderList xs ys'
termination_by structural a _ => a

def ReorderPairs : List (GoVal × GoVal) → List (GoVal × GoVal) → Prop
  | [], fs => fs = []
  | (k, v) :: es, fs =>
    ∃ l w fs', fs = (l, w) :: fs' ∧ Reorder k l ∧ Reorder v w ∧ ReorderPairs es fs'
termination_by structural a _ => a

def ReorderFields : List (Bool × GoVal) → List (Bool × GoVal) → Prop
  | [], gs => gs = []
  | (e, v) :: fs, gs => ∃ w gs', gs = (e, w) :: gs' ∧ Reorder v w ∧ ReorderFields fs gs'
termination_by structural a _ => a

end

theorem reorderList_length : ∀ (xs ys : List GoVal), ReorderList xs ys → ys.length = xs.length := by
  intro xs
  induction xs with
  | nil => intro ys h; rw [show ys = [] from h]
  | cons x xs ih =>
    intro ys h
    obtain ⟨y, ys', rfl, _, h'⟩ := h
    simp [ih ys' h']

theorem reorderPairs_length : ∀ (es fs : List (GoVal × GoVal)), ReorderPairs es fs →
    fs.length = es.length := by
  intro es
  induction es with
  | nil => intro fs h; rw [show fs = [] from h]
  | cons p es ih =>
    intro fs h
    cases p with
    | mk k v =>
      obtain ⟨l, w, fs', rfl, _, _, h'⟩ := h
      simp [ih fs' h']

theorem reorderFields_length : ∀ (fs gs : List (Bool × GoVal)), ReorderFields fs gs →
    gs.length = fs.length := by
  intro fs
  induction fs with
  | nil => intro gs h; rw [show gs = [] from h]
  | cons f fs ih =>
    intro gs h
    cases f with
    | mk e v =>
      obtain ⟨w, gs', rfl, _, h'⟩ := h
      simp [ih gs' h']

theorem supportedPairs_iff (kt vt : GoTy) : ∀ es : List (GoVal × GoVal),
    supportedPairs kt vt es = true ↔
      ∀ p ∈ es, supported p.1 = true ∧ tyOf p.1 = kt ∧ supported p.2 = true ∧ tyOf p.2 = vt := by
  intro es
  induction es with
  | nil => simp [supportedPairs]
  | cons p es ih =>
    cases p with
    | mk k v =>
      simp only [supportedPairs, Bool.and_eq_true, decide_eq_true_eq, ih, List.mem_cons]
      constructor
      · rintro ⟨⟨⟨⟨hk, hkt⟩, hv⟩, hvt⟩, h⟩ q hq
        rcases hq with rfl | hq
        · exact ⟨hk, hkt, hv, hvt⟩
        · exact h q hq
      · intro h
        have hp := h (k, v) (Or.inl rfl)
        exact ⟨⟨⟨⟨hp.1, hp.2.1⟩, hp.2.2.1⟩, hp.2.2.2⟩, fun q hq => h q (Or.inr hq)⟩

theorem hasKey_iff (es : List (GoVal × GoVal)) (k : GoVal) :
    hasKey es k = true ↔ ∃ p ∈ es, p.1 = k := by
  simp [hasKey, List.any_eq_true, beqVal_iff]

theorem nodupKeys_iff : ∀ es : List (GoVal × GoVal),
    nodupKeys es = true ↔ es.Pairwise (fun p q => p.1 ≠ q.1) := by
  intro es
  induction es with
  | nil => simp [nodupKeys]
  | cons p es ih =>
    cases p with
    | mk k v =>
      simp only [nodupKeys, Bool.and_eq_true, Bool.not_eq_true', List.pairwise_cons, ih]
      constructor
      · rintro ⟨hk, h⟩
        refine ⟨fun q hq => ?_, h⟩
        intro hkq
        have : hasKey es k = true := (hasKey_iff es k).2 ⟨q, hq, hkq.symm⟩
        rw [this] at hk
        exact Bool.true_eq_false.mp hk
      · rintro ⟨hk, h⟩
        refine ⟨?_, h⟩
        cases hhk : hasKey es k
        · rfl
        · obtain ⟨q, hq, hqk⟩ := (hasKey_iff es k).1 hhk
          exact absurd hqk.symm (hk q hq)

theorem nodupKeys_perm {es fs : List (GoVal × GoVal)} (hp : es.Perm fs)
    (h : nodupKeys es = true) : nodupKeys fs = true := by
  rw [nodupKeys_iff] at h ⊢
  exact (hp.pairwise_iff fun hab => hab ∘ Eq.symm).mp h

mutual

theorem reorder_tyOf : ∀ (v w : GoVal), Reorder v w → tyOf w = tyOf v
  | .scalar sk bits, w, h => by rw [show w = .scalar sk bits from h]
  | .str bs, w, h => by rw [show w = .str bs from h]
  | .array elem xs, w, h => by
    have h' : ∃ ys, w = .array elem ys ∧ ReorderList xs ys := h
    obtain ⟨ys, rfl, hl⟩ := h'
    simp [tyOf, reorderList_length xs ys hl]
  | .slice elem xs, w, h => by
    have h' : ∃ ys, w = .slice elem ys ∧ ReorderList xs ys := h
    obtain ⟨ys, rfl, _⟩ := h'
    simp [tyOf]
  | .map kt vt es, w, h => by
    have h' : ∃ mid fs, w = .map kt vt fs ∧ ReorderPairs es mid ∧ mid.Perm fs := h
    obtain ⟨mid, fs, rfl, _, _⟩ := h'
    simp [tyOf]
  | .struct fs, w, h => by
    have h' : ∃ gs, w = .struct gs ∧ ReorderFields fs gs := h
    obtain ⟨gs, rfl, hf⟩ := h'
    simp [tyOf, reorder_tyOf_fields fs gs hf]
  | .unsup k, w, h => by rw [show w = .unsup k from h]

theorem reorder_tyOf_fields : ∀ (fs gs : List (Bool × GoVal)), ReorderFields fs gs →
    tyOfFields gs = tyOfFields fs
  | [], gs, h => by rw [show gs = [] from h]
  | (e, v) :: fs, gs, h => by
    have h' : ∃ w gs', gs = (e, w) :: gs' ∧ Reorder v w ∧ ReorderFields fs gs' := h
    obtain ⟨w, gs', rfl, hw, hrest⟩ := h'
    simp [tyOfFields, reorder_tyOf v w hw, reorder_tyOf_fields fs gs' hrest]

end

mutual

/-- On values of Go-comparable type (in particular on map keys), the
reorder relation collapses to equality: such values contain no maps. -/
theorem reorder_eq_of_comparable : ∀ (v w : GoVal), supported v = true →
    comparableTy (tyOf v) = true → Reorder v w → w = v
  | .scalar _ _, _, _, _, h => h
  | .str _, _, _, _, h => h
  | .array elem xs, w, hs, hc, h => by
    have h' : ∃ ys, w = .array elem ys ∧ ReorderList xs ys := h
    obtain ⟨ys, rfl, hl⟩ := h'
    simp only [supported, Bool.and_eq_true, decide_eq_true_eq] at hs
    have hc' : comparableTy elem = true := by
      simpa [tyOf, comparableTy] using hc
    rw [reorder_list_eq_of_comparable elem xs ys hs.2 hc' hl]
  | .slice elem xs, w, _, hc, _ => by simp [tyOf, comparableTy] at hc
  | .map kt vt es, w, _, hc, _ => by simp [tyOf, comparableTy] at hc
  | .struct fs, w, hs, hc, h => by
    have h' : ∃ gs, w = .struct gs ∧ ReorderFields fs gs := h
    obtain ⟨gs, rfl, hf⟩ := h'
    simp only [supported, Bool.and_eq_true, decide_eq_true_eq] at hs
    have hc' : comparableTys (tyOfFields fs) = true := by
      simpa [tyOf, comparableTy] using hc
    rw [reorder_fields_eq_of_comparable fs gs hs.2 hc' hf]
  | .unsup k, w, hs, _, _ => by simp [supported] at hs

theorem reorder_list_eq_of_comparable : ∀ (elem : GoTy) (xs ys : List GoVal),
    supportedElems elem xs = true → comparableTy elem = true → ReorderList xs ys → ys = xs
  | _, [], _, _, _, h => h
  | elem, x :: xs, ys, hs, hc, h => by
    have h' : ∃ y ys', ys = y :: ys' ∧ Reorder x y ∧ ReorderList xs ys' := h
    obtain ⟨y, ys', rfl, hxy, hrest⟩ := h'
    simp only [supportedElems, Bool.and_eq_true, decide_eq_true_eq] at hs
    obtain ⟨⟨hx, hty⟩, hxs⟩ := hs
    have hcx : comparableTy (tyOf x) = true := by rw [hty]; exact hc
    rw [reorder_eq_of_comparable x y hx hcx hxy,
      reorder_list_eq_of_comparable elem xs ys' hxs hc hrest]

theorem reorder_fields_eq_of_comparable : ∀ (fs gs : List (Bool × GoVal)),
    supportedFields fs = true → comparableTys (tyOfFields fs) = true →
    ReorderFields fs gs → gs = fs
  | [], _, _, _, h => h
  | (e, v) :: fs, gs, hs, hc, h => by
    have h' : ∃ w gs', gs = (e, w) :: gs' ∧ Reorder v w ∧ ReorderFields fs gs' := h
    obtain ⟨w, gs', rfl, hvw, hrest⟩ := h'
    simp only [supportedFields, Bool.and_eq_true] at hs
    obtain ⟨⟨_, hv⟩, hfs⟩ := hs
    simp only [tyOfFields, comparableTys, Bool.and_eq_true] at hc
    rw [reorder_eq_of_comparable v w hv hc.1 hvw,
      reorder_fields_eq_of_comparable fs gs' hfs hc.2 hrest]

end

/-- Reordering supported entries with comparable keys leaves the key list
unchanged (only values can contain maps). -/
theorem reorder_pairs_keys_eq (kt vt : GoTy) (hc : comparableTy kt = true) :
    ∀ (es fs : List (GoVal × GoVal)), supportedPairs kt vt es = true →
    ReorderPairs es fs → fs.map Prod.fst = es.map Prod.fst := by
  intro es
  induction es with
  | nil => intro fs _ h; rw [show fs = [] from h]
  | cons p es ih =>
    intro fs hs h
    cases p with
    | mk k v =>
      have h' : ∃ l w fs', fs = (l, w) :: fs' ∧ Reorder k l ∧ Reorder v w ∧ ReorderPairs es fs' := h
      obtain ⟨l, w, fs', rfl, hkl, _, hrest⟩ := h'
      simp only [supportedPairs, Bool.and_eq_true, decide_eq_true_eq] at hs
      obtain ⟨⟨⟨⟨hk, hkt⟩, _⟩, _⟩, hes⟩ := hs
      have hck : comparableTy (tyOf k) = true := by rw [hkt]; exact hc
      simp only [List.map_cons, reorder_eq_of_comparable k l hk hck hkl, ih fs' hes hrest]

/-- Key distinctness only depends on the key list. -/
theorem nodupKeys_eq_of_keys : ∀ (es fs : List (GoVal × GoVal)),
    es.map Prod.fst = fs.map Prod.fst → nodupKeys es = nodupKeys fs := by
  intro es
  induction es with
  | nil => intro fs h; cases fs <;> simp_all
  | cons p es ih =>
    intro fs h
    cases fs with
    | nil => simp at h
    | cons q fs =>
      simp only [List.map_cons, List.cons.injEq] at h
      obtain ⟨h1, h2⟩ := h
      cases p with
      | mk k v =>
        cases q with
        | mk l w =>
          simp only at h1
          subst h1
          have hkeys : ∀ (a b : List (GoVal × GoVal)), a.map Prod.fst = b.map Prod.fst →
              ∀ x, hasKey a x = hasKey b x := by
            intro a
            induction a with
            | nil => intro b hb x; cases b <;> simp_all [hasKey]
            | cons r a iha =>
              intro b hb x
              cases b with
              | nil => simp at hb
              | cons t b =>
                simp only [List.map_cons, List.cons.injEq] at hb
                simp only [hasKey, List.any_cons]
                have := iha b hb.2 x
                simp only [hasKey] at this
                rw [hb.1, this]
          simp only [nodupKeys, ih fs h2, hkeys es fs h2 k]

mutual

/-- Reordering map iteration order preserves supportedness. -/
theorem reorder_supported : ∀ (v w : GoVal), Reorder v w → supported v = true →
    supported w = true
  | .scalar sk bits, w, h, hs => by rw [show w = .scalar sk bits from h]; exact hs
  | .str bs, w, h, hs => by rw [show w = .str bs from h]; exact hs
  | .array elem xs, w, h, hs => by
    have h' : ∃ ys, w = .array elem ys ∧ ReorderList xs ys := h
    obtain ⟨ys, rfl, hl⟩ := h'
    simp only [supported, Bool.and_eq_true, decide_eq_true_eq] at hs ⊢
    exact ⟨by rw [reorderList_length xs ys hl]; exact hs.1,
      reorder_supported_list elem xs ys hl hs.2⟩
  | .slice elem xs, w, h, hs => by
    have h' : ∃ ys, w = .slice elem ys ∧ ReorderList xs ys := h
    obtain ⟨ys, rfl, hl⟩ := h'
    simp only [supported, Bool.and_eq_true, decide_eq_true_eq] at hs ⊢
    exact ⟨by rw [reorderList_length xs ys hl]; exact hs.1,
      reorder_supported_list elem xs ys hl hs.2⟩
  | .map kt vt es, w, h, hs => by
    have h' : ∃ mid fs, w = .map kt vt fs ∧ ReorderPairs es mid ∧ mid.Perm fs := h
    obtain ⟨mid, fs, rfl, hrp, hperm⟩ := h'
    simp only [supported, Bool.and_eq_true, decide_eq_true_eq] at hs ⊢
    obtain ⟨⟨⟨hlen, hcmp⟩, hps⟩, hnd⟩ := hs
    have hmid : supportedPairs kt vt mid = true :=
      reorder_supported_pairs kt vt es mid hrp hps
    have hkeys : mid.map Prod.fst = es.map Prod.fst :=
      reorder_pairs_keys_eq kt vt hcmp es mid hps hrp
    have hndmid : nodupKeys mid = true := by
      rw [← nodupKeys_eq_of_keys es mid hkeys.symm]
      exact hnd
    refine ⟨⟨⟨?_, hcmp⟩, ?_⟩, nodupKeys_perm hperm hndmid⟩
    · rw [← hperm.length_eq, reorderPairs_length es mid hrp]
      exact hlen
    · rw [supportedPairs_iff] at hmid ⊢
      intro p hp
      exact hmid p (hperm.symm.subset hp)
  | .struct fs, w, h, hs => by
    have h' : ∃ gs, w = .struct gs ∧ ReorderFields fs gs := h
    obtain ⟨gs, rfl, hf⟩ := h'
    simp only [supported, Bool.and_eq_true, decide_eq_true_eq] at hs ⊢
    exact ⟨by rw [reorderFields_length fs gs hf]; exact hs.1,
      reorder_supported_fields fs gs hf hs.2⟩
  | .unsup k, w, h, hs => by simp [supported] at hs

theorem reorder_supported_list : ∀ (elem : GoTy) (xs ys : List GoVal),
    ReorderList xs ys → supportedElems elem xs = true → supportedElems elem ys = true
  | _, [], ys, h, _ => by rw [show ys = [] from h]; rfl
  | elem, x :: xs, ys, h, hs => by
    have h' : ∃ y ys', ys = y :: ys' ∧ Reorder x y ∧ ReorderList xs ys' := h
    obtain ⟨y, ys', rfl, hxy, hrest⟩ := h'
    simp only [supportedElems, Bool.and_eq_true, decide_eq_true_eq] at hs ⊢
    obtain ⟨⟨hx, hty⟩, hxs⟩ := hs
    exact ⟨⟨reorder_supported x y hxy hx, by rw [reorder_tyOf x y hxy]; exact hty⟩,
      reorder_supported_list elem xs ys' hrest hxs⟩

theorem reorder_supported_pairs : ∀ (kt vt : GoTy) (es fs : List (GoVal × GoVal)),
    ReorderPairs es fs → supportedPairs kt vt es = true → supportedPairs kt vt fs = true
  | _, _, [], fs, h, _ => by rw [show fs = [] from h]; rfl
  | kt, vt, (k, v) :: es, fs, h, hs => by
    have h' : ∃ l w fs', fs = (l, w) :: fs' ∧ Reorder k l ∧ Reorder v w ∧ ReorderPairs es fs' := h
    obtain ⟨l, w, fs', rfl, hkl, hvw, hrest⟩ := h'
    simp only [supportedPairs, Bool.and_eq_true, decide_eq_true_eq] at hs ⊢
    obtain ⟨⟨⟨⟨hk, hkt⟩, hv⟩, hvt⟩, hes⟩ := hs
    exact ⟨⟨⟨⟨reorder_supported k l hkl hk, by rw [reorder_tyOf k l hkl]; exact hkt⟩,
      reorder_supported v w hvw hv⟩, by rw [reorder_tyOf v w hvw]; exact hvt⟩,
      reorder_supported_pairs kt vt es fs' hrest hes⟩

theorem reorder_supported_fields : ∀ (fs gs : List (Bool × GoVal)),
    ReorderFields fs gs → supportedFields fs = true → supportedFields gs = true
  | [], gs, h, _ => by rw [show gs = [] from h]; rfl
  | (e, v) :: fs, gs, h, hs => by
    have h' : ∃ w gs', gs = (e, w) :: gs' ∧ Reorder v w ∧ ReorderFields fs gs' := h
    obtain ⟨w, gs', rfl, hvw, hrest⟩ := h'
    simp only [supportedFields, Bool.and_eq_true] at hs ⊢
    obtain ⟨⟨he, hv⟩, hfs⟩ := hs
    exact ⟨⟨he, reorder_supported v w hvw hv⟩,
      reorder_supported_fields fs gs' hrest hfs⟩

end

/-- C1: for every supported value v (booleans, fixed- and native-width
integers, floats, complex numbers, fixed arrays, dynamic sequences,
strings, mappings, and records with exported fields, nested
combinations included), decoding the encoding of v into a
shape-matching destination succeeds, consumes exactly the encoding, and
yields a value equal to v — where equality is semantic for mappings:
v' ranges over the renderings of v under every map iteration order the
encoder may use (`Reorder v v'`), and the decoded value is again equal
to v as a mapping. -/
theorem c1_round_trip (v v' : GoVal) (rest : List Nat)
    (hs : supported v = true) (hr : Reorder v v') :
    ∃ w, decodeValue (tyOf v) ((encodeValue false v').1 ++ rest) = .ok (w, rest) ∧
      Reorder v w := by
  refine ⟨v', ?_, hr⟩
  have hs' := reorder_supported v v' hr hs
  have hty := reorder_tyOf v v' hr
  rw [← hty]
  exact decode_encode v' rest hs'

theorem c1_round_trip_witness :
    ∃ w, decodeValue (tyOf (GoVal.map .str (.scalar .int)
        [(.str [97], .scalar .int 1), (.str [98], .scalar .int 2)]))
      ((encodeValue false (GoVal.map .str (.scalar .int)
        [(.str [98], .scalar .int 2), (.str [97], .scalar .int 1)])).1 ++ []) = .ok (w, []) ∧
      Reorder (GoVal.map .str (.scalar .int)
        [(.str [97], .scalar .int 1), (.str [98], .scalar .int 2)]) w :=
  c1_round_trip _ _ [] (by decide)
    ⟨[(.str [97], .scalar .int 1), (.str [98], .scalar .int 2)],
     [(.str [98], .scalar .int 2), (.str [97], .scalar .int 1)],
     rfl,
     ⟨_, _, _, rfl, rfl, rfl, ⟨_, _, _, rfl, rfl, rfl, rfl⟩⟩,
     by decide⟩

/-- C6: a decode whose leading kind tag differs from the destination's
kind fails with `IncompatibleValue`; the failure happens before any
assignment, so the model returns no value at all. -/
theorem c6_kind_mismatch (ty : GoTy) (b : Nat) (s : List Nat) (h : b ≠ ty.kindByte) :
    decodeValue ty (b :: s) = .error .incompatibleValue :=
  decodeValue_tag_mismatch ty b s h

theorem c6_kind_mismatch_witness :
    decodeValue (.scalar .int) (24 :: [3, 0, 0, 0, 0, 0, 0, 0, 97, 98, 99]) =
      .error .incompatibleValue :=
  c6_kind_mismatch (.scalar .int) 24 _ (by decide)

/-- C7: a fixed-array payload whose encoded count differs from the
destination's static length fails with `ArrayLengthMismatch`, and a
record payload whose encoded field count differs from the destination's
field count fails with `FieldCountMismatch`, for every mismatched
count representable in a native word. -/
theorem c7_shape_mismatch :
    (∀ (n : Nat) (elem : GoTy) (m : Nat) (s : List Nat),
      m < 2 ^ (8 * uintSize) → m ≠ n →
      decodeValue (.array n elem) (17 :: encInt m ++ s) = .error .arrayLengthMismatch) ∧
    (∀ (tys : List GoTy) (m : Nat) (s : List Nat),
      m < 2 ^ (8 * uintSize) → m ≠ tys.length →
      decodeValue (.struct tys) (25 :: encInt m ++ s) = .error .fieldCountMismatch) := by
  constructor
  · intro n elem m s hm hne
    rw [List.cons_append, decodeValue_array_step (readInt_encInt m hm s), if_neg hne]
  · intro tys m s hm hne
    rw [List.cons_append, decodeValue_struct_step (readInt_encInt m hm s), if_neg hne]

theorem c7_shape_mismatch_witness :
    decodeValue (.array 5 (.scalar .int8)) (17 :: encInt 4 ++ [3, 1, 3, 2, 3, 3, 3, 4]) =
      .error .arrayLengthMismatch ∧
    decodeValue (.struct [.scalar .int8, .scalar .int8]) (25 :: encInt 3 ++ [3, 9]) =
      .error .fieldCountMismatch :=
  ⟨c7_shape_mismatch.1 5 (.scalar .int8) 4 _ (by decide) (by decide),
   c7_shape_mismatch.2 [.scalar .int8, .scalar .int8] 3 _ (by decide) (by decide)⟩

/-- C8: encoding a value of an unsupported kind (pointer, interface,
function, channel, uintptr, unsafe pointer) fails with
`UnsupportedType`, and decoding a payload tagged with such a kind into
the matching destination likewise fails with `UnsupportedType` (with a
destination of a different kind, the tag check fires first and gives
`IncompatibleValue` instead). -/
theorem c8_unsupported_kinds (k : UnsupKind) (s : List Nat) :
    encodeValue false (.unsup k) = ([k.tag], some .unsupportedType) ∧
    decodeValue (.unsup k) (k.tag :: s) = .error .unsupportedType :=
  ⟨rfl, decodeValue_unsup k s⟩

/-- C10: `EncodeValue` writes the one-byte kind tag before dispatching on
the kind, so the first byte written is always the tag; for an
unsupported kind the `UnsupportedType` failure is returned with that
byte already emitted — encoding is not atomic on error. -/
theorem c10_tag_written_before_unsupported_failure (v : GoVal) :
    (encodeValue false v).1.head? = some v.kindTag ∧
    (∀ k : UnsupKind, v = .unsup k →
      encodeValue false v = ([v.kindTag], some .unsupportedType)) := by
  constructor
  · cases v <;> rfl
  · rintro k rfl
    rfl

theorem c10_witness :
    (encodeValue false (.unsup .ptr)).1.head? = some (GoVal.unsup .ptr).kindTag ∧
    encodeValue false (.unsup .ptr) = ([(GoVal.unsup .ptr).kindTag], some .unsupportedType) :=
  ⟨(c10_tag_written_before_unsupported_failure (.unsup .ptr)).1,
   (c10_tag_written_before_unsupported_failure (.unsup .ptr)).2 .ptr rfl⟩

/-- C5 counterexample: a record with one non-exported int field.  The
claim says non-exported fields are never read, encoded, or counted, so
the encoding would be the field count 0 and nothing else; the code
instead counts the field (`NumField` counts all fields), then starts
encoding it — its kind tag lands on the stream — and the reflect
extraction of the non-exported field panics. -/
theorem c5_counterexample :
    encodeValue false (.struct [(false, .scalar .int 7)]) =
        (25 :: encInt 1 ++ [2], some .panicUnexported) ∧
      encodeValue false (.struct [(false, .scalar .int 7)]) ≠ (25 :: encInt 0, none) := by
  constructor
  · rfl
  · decide

theorem encodeFields_flat : ∀ fs : List (Bool × GoVal), supportedFields fs = true →
    encodeFields false fs = (((fs.map fun f => (encodeValue false f.2).1)).flatten, none) := by
  intro fs
  induction fs with
  | nil => intro _; rfl
  | cons f fs ih =>
    intro h
    cases f with
    | mk e v =>
      simp only [supportedFields, Bool.and_eq_true] at h
      obtain ⟨⟨he, hv⟩, hfs⟩ := h
      subst he
      simp [encodeFields, encodeValue_ok v hv, ih hfs]

/-- C5 (amended): encoding a record writes the count of all its fields
followed by each field encoded positionally; when every field is
exported — the documented precondition of the package — this is exactly
the field count followed by each exported field in order, and encoding
succeeds. -/
theorem c5_record_encoding (fs : List (Bool × GoVal)) (h : supportedFields fs = true) :
    encodeValue false (.struct fs) =
      (25 :: encInt fs.length ++ ((fs.map fun f => (encodeValue false f.2).1)).flatten, none) := by
  show (25 :: encInt fs.length ++ (encodeFields false fs).1, (encodeFields false fs).2) = _
  rw [encodeFields_flat fs h]

theorem c5_record_encoding_witness :
    encodeValue false (.struct [(true, .scalar .int8 7), (true, .str [104])]) =
      (25 :: encInt 2 ++
        (([(true, GoVal.scalar .int8 7), (true, GoVal.str [104])]).map
          fun f => (encodeValue false f.2).1).flatten, none) :=
  c5_record_encoding _ (by decide)

/-!
The RPC calling layer (`rpc/conn.go`).  A request carries
`encode(name) ++ encode(arg1) ++ ... ++ encode(argN)`; the response
carries `encode(errString)` followed, only when the error string is
empty, by `encode(out1) ++ ... ++ encode(outM)`.  Both sides stage the
whole message in a buffer and flush it as one write, so a message is a
single byte list here.  Strings are byte lists, as in the codec model.
-/

/-- Failures a client call can return: the remote failure message
(`errors.New(errStr)` for a non-empty error string), a decode failure
while reading the response, or an encode failure while building the
request. -/
inductive ClientErr where
  | remote (msg : List Nat)
  | protocol (e : DecErr)
  | encodeFailure (e : EncErr)
deriving DecidableEq

/-- A registered procedure (`procedure`): its input types and the
wrapped call.  `call` returns the positional outputs (the trailing
error excluded) together with the failure message of a non-nil final
error, if any — exactly what `procedure.call` exposes to `Serve`. -/
structure Procedure where
  inTys : List GoTy
  call : List GoVal → List GoVal × Option (List Nat)

/-- Errors a `Server.Serve` iteration can return (each is logged by the
serving loop and aborts only the current iteration). -/
inductive ServeErr where
  | nameDecodeError (e : DecErr)
  | invalidName
  | inputDecodeError (e : DecErr)
  | returnEncodeError (e : EncErr)
deriving DecidableEq

/-- Decode into a string destination (`Decode(&name)`, `Decode(&errStr)`).
The catch-all branch is unreachable: a string destination only ever
decodes to a string value. -/
def decodeString (s : List Nat) : Except DecErr (List Nat × List Nat) :=
  match decodeValue .str s with
  | .error e => .error e
  | .ok (.str bs, s') => .ok (bs, s')
  | .ok (_, _) => .error .incompatibleValue

/-- One `Server.Serve` iteration over the inbound stream: decode the call
name, look it up (`invalid name` if absent), decode one input per
registered input type into fresh destinations, call the procedure,
encode the failure message (empty on success), encode the outputs only
when the failure is nil, and flush the staged buffer as one write.  The
result is the flushed response and the stream remainder; an error means
the iteration aborted and nothing was flushed. -/
def serve (procs : List (List Nat × Procedure)) (s : List Nat) :
    Except ServeErr (List Nat × List Nat) :=
  match decodeString s with
  | .error e => .error (.nameDecodeError e)
  | .ok (name, s1) =>
    match procs.lookup name with
    | none => .error .invalidName
    | some p =>
      match decodeTys p.inTys s1 with
      | .error e => .error (.inputDecodeError e)
      | .ok (ins, s2) =>
        match p.call ins with
        | (_, some msg) => .ok ((encodeValue false (.str msg)).1, s2)
        | (outs, none) =>
          match encodeList false outs with
          | (_, some e) => .error (.returnEncodeError e)
          | (bytes, none) => .ok ((encodeValue false (.str [])).1 ++ bytes, s2)

/-- The client stub's request staging: encode the name, then each
argument positionally, into the staging buffer (returning the buffer
and the first encode failure, if any — on failure the stub returns
without flushing). -/
def clientRequest (name : List Nat) (args : List GoVal) : List Nat × Option EncErr :=
  let r0 := encodeValue false (.str name)
  match r0.2 with
  | some e => (r0.1, some e)
  | none =>
    let r1 := encodeList false args
    (r0.1 ++ r1.1, r1.2)

/-- The client stub's output decoding: one output per declared type, into
pre-allocated zero values; a decode failure leaves the failed and all
later outputs at their zero values. -/
def decodeOuts : List GoTy → List Nat → List GoVal × Option ClientErr
  | [], _ => ([], none)
  | t :: ts, s =>
    match decodeValue t s with
    | .error e => (zeroVal t :: ts.map zeroVal, some (.protocol e))
    | .ok (v, s') =>
      let r := decodeOuts ts s'
      (v :: r.1, r.2)

/-- The client stub's response handling: decode the leading failure
message; an empty message means success and the declared outputs are
decoded positionally; a non-empty message is returned as the call's
error with every output left at its zero value and no output decoding
attempted. -/
def clientHandleResponse (outTys : List GoTy) (resp : List Nat) :
    List GoVal × Option ClientErr :=
  match decodeString resp with
  | .error e => (outTys.map zeroVal, some (.protocol e))
  | .ok (msg, s1) =>
    if msg = [] then decodeOuts outTys s1
    else (outTys.map zeroVal, some (.remote msg))

theorem decodeString_encodeString (bs : List Nat) (h : supported (.str bs) = true)
    (rest : List Nat) :
    decodeString ((encodeValue false (.str bs)).1 ++ rest) = .ok (bs, rest) := by
  unfold decodeString
  rw [show decodeValue GoTy.str ((encodeValue false (.str bs)).1 ++ rest) =
    .ok (.str bs, rest) from decode_encode (.str bs) rest h]

theorem decodeTys_encodeList : ∀ (args : List GoVal) (rest : List Nat),
    (∀ a ∈ args, supported a = true) →
    decodeTys (args.map tyOf) ((encodeList false args).1 ++ rest) = .ok (args, rest) := by
  intro args
  induction args with
  | nil => intro rest _; rfl
  | cons a args ih =>
    intro rest h
    have ha := h a (List.mem_cons_self a args)
    have hrest := fun x hx => h x (List.mem_cons_of_mem a hx)
    have he := encodeValue_ok a ha
    have hbytes : encodeList false (a :: args) =
        ((encodeValue false a).1 ++ (encodeList false args).1, (encodeList false args).2) := by
      simp [encodeList, he]
    rw [hbytes]
    simp only [List.map_cons]
    rw [List.append_assoc]
    simp only [decodeTys,
      show decodeValue (tyOf a)
          ((encodeValue false a).1 ++ ((encodeList false args).1 ++ rest)) =
        .ok (a, (encodeList false args).1 ++ rest) from decode_encode a _ ha,
      ih rest hrest]

/-- The procedure `Add(a, b int) (int, error)` returning `(a+b, nil)`:
two native-int inputs, one native-int output (Go addition wraps at the
word size) and no failure. -/
def addProcedure : Procedure where
  inTys := [.scalar .int, .scalar .int]
  call := fun args =>
    match args with
    | [.scalar .int a, .scalar .int b] => ([.scalar .int ((a + b) % 2 ^ 64)], none)
    | _ => ([], some [98, 97, 100])

/-- C2: with `Add` registered under the name "Add" (bytes 65 100 100),
the client stub's staged request for arguments 2 and 3 is served in one
iteration producing the response `encode("") ++ encode(5)` with the
request fully consumed, and the client decodes that response to the
output 5 with no error. -/
theorem c2_add_rpc :
    serve [([65, 100, 100], addProcedure)]
        (clientRequest [65, 100, 100] [.scalar .int 2, .scalar .int 3]).1 =
      .ok ((encodeValue false (.str [])).1 ++ (encodeValue false (.scalar .int 5)).1, []) ∧
    clientHandleResponse [.scalar .int]
        ((encodeValue false (.str [])).1 ++ (encodeValue false (.scalar .int 5)).1) =
      ([.scalar .int 5], none) :=
  ⟨rfl, rfl⟩

theorem serve_eq (procs : List (List Nat × Procedure)) (s : List Nat)
    (name s1 : List Nat) (p : Procedure) (ins : List GoVal) (s2 : List Nat)
    (h1 : decodeString s = .ok (name, s1))
    (h2 : procs.lookup name = some p)
    (h3 : decodeTys p.inTys s1 = .ok (ins, s2)) :
    serve procs s =
      match p.call ins with
      | (_, some msg) => .ok ((encodeValue false (.str msg)).1, s2)
      | (outs, none) =>
        match encodeList false outs with
        | (_, some e) => .error (.returnEncodeError e)
        | (bytes, none) => .ok ((encodeValue false (.str [])).1 ++ bytes, s2) := by
  simp only [serve, h1, h2, h3]

theorem serve_invalid (procs : List (List Nat × Procedure)) (s : List Nat)
    (name s1 : List Nat)
    (h1 : decodeString s = .ok (name, s1))
    (h2 : procs.lookup name = none) :
    serve procs s = .error .invalidName := by
  simp only [serve, h1, h2]

theorem clientRequest_bytes (name : List Nat) (args : List GoVal) :
    (clientRequest name args).1 =
      (encodeValue false (.str name)).1 ++ (encodeList false args).1 := rfl

/-- C3: when a registered procedure reports a failure, the server
encodes only the failure message — outputs are encoded if and only if
the failure is nil — and a client receiving a non-empty failure message
returns it as the call's error with every declared output left at its
zero value, decoding nothing after the message (the bytes after the
message, `junk`, are arbitrary and never touched). -/
theorem c3_failure_propagation
    (procs : List (List Nat × Procedure)) (name : List Nat) (p : Procedure)
    (args : List GoVal) (rest : List Nat)
    (hname : supported (.str name) = true)
    (hlookup : procs.lookup name = some p)
    (hargs : ∀ a ∈ args, supported a = true)
    (htys : p.inTys = args.map tyOf) :
    (∀ outs msg, p.call args = (outs, some msg) →
      serve procs ((clientRequest name args).1 ++ rest) =
        .ok ((encodeValue false (.str msg)).1, rest)) ∧
    (∀ outs, p.call args = (outs, none) → (encodeList false outs).2 = none →
      serve procs ((clientRequest name args).1 ++ rest) =
        .ok ((encodeValue false (.str [])).1 ++ (encodeList false outs).1, rest)) ∧
    (∀ (outTys : List GoTy) (msg junk : List Nat), msg ≠ [] →
      supported (.str msg) = true →
      clientHandleResponse outTys ((encodeValue false (.str msg)).1 ++ junk) =
        (outTys.map zeroVal, some (.remote msg))) := by
  have hstream : (clientRequest name args).1 ++ rest =
      (encodeValue false (.str name)).1 ++ ((encodeList false args).1 ++ rest) := by
    rw [clientRequest_bytes, List.append_assoc]
  have h1 := decodeString_encodeString name hname ((encodeList false args).1 ++ rest)
  have h3 : decodeTys p.inTys ((encodeList false args).1 ++ rest) = .ok (args, rest) := by
    rw [htys]
    exact decodeTys_encodeList args rest hargs
  refine ⟨?_, ?_, ?_⟩
  · intro outs msg hcall
    rw [hstream, serve_eq procs _ name _ p args rest h1 hlookup h3, hcall]
  · intro outs hcall henc
    rw [hstream, serve_eq procs _ name _ p args rest h1 hlookup h3, hcall]
    have hsplit : encodeList false outs = ((encodeList false outs).1, none) := by
      conv_lhs => rw [show encodeList false outs =
        ((encodeList false outs).1, (encodeList false outs).2) from rfl, henc]
    show (match encodeList false outs with
      | (_, some e) => Except.error (ServeErr.returnEncodeError e)
      | (bytes, none) =>
        Except.ok ((encodeValue false (GoVal.str [])).1 ++ bytes, rest)) =
      Except.ok ((encodeValue false (GoVal.str [])).1 ++ (encodeList false outs).1, rest)
    conv_lhs => rw [hsplit]
  · intro outTys msg junk hne hsup
    simp only [clientHandleResponse, decodeString_encodeString msg hsup junk, if_neg hne]

/-- The procedure of the failure scenario: one int input, result
`(0, errors.New("bad"))`, which `procedure.call` surfaces as no outputs
and the failure message "bad" (bytes 98 97 100). -/
def failProcedure : Procedure where
  inTys := [.scalar .int]
  call := fun _ => ([], some [98, 97, 100])

theorem c3_failure_propagation_witness :
    serve [([70], failProcedure)] ((clientRequest [70] [.scalar .int 0]).1 ++ []) =
      .ok ((encodeValue false (.str [98, 97, 100])).1, []) ∧
    clientHandleResponse [.scalar .int]
        ((encodeValue false (.str [98, 97, 100])).1 ++ []) =
      ([.scalar .int 0], some (.remote [98, 97, 100])) :=
  ⟨(c3_failure_propagation [([70], failProcedure)] [70] failProcedure
      [.scalar .int 0] [] (by decide) rfl (by decide) rfl).1 [] [98, 97, 100] rfl,
   (c3_failure_propagation [([70], failProcedure)] [70] failProcedure
      [.scalar .int 0] [] (by decide) rfl (by decide) rfl).2.2
     [.scalar .int] [98, 97, 100] [] (by decide) (by decide)⟩

/-- C4 counterexample: serving a call for the unregistered name "miss"
(bytes 109 105 115 115) on a server with an empty registry.  The first
conjunct shows the iteration fails with the `invalid name` error, as the
claim says; the second shows `Serve` produces no response at all — the
iteration returns before anything is flushed — so, contrary to the
claim, no error (nor anything else) is sent to the client: the pending
request handler stays blocked on the response rendezvous and the
client's POST never completes. -/
theorem c4_counterexample :
    serve [] (encodeValue false (.str [109, 105, 115, 115])).1 =
        .error .invalidName ∧
      (serve [] (encodeValue false (.str [109, 105, 115, 115])).1).isOk = false :=
  ⟨rfl, rfl⟩

/-- C4 (amended): for every call whose decoded name is not in the
registry, the `Serve` iteration fails with the `invalid name` error and
flushes no response; nothing reaches the client for that call. -/
theorem c4_unknown_name (procs : List (List Nat × Procedure)) (name rest : List Nat)
    (hname : supported (.str name) = true)
    (hlookup : procs.lookup name = none) :
    serve procs ((encodeValue false (.str name)).1 ++ rest) = .error .invalidName :=
  serve_invalid procs _ name rest (decodeString_encodeString name hname rest) hlookup

theorem c4_unknown_name_witness :
    serve [([65], addProcedure)] ((encodeValue false (.str [109])).1 ++ []) =
      .error .invalidName :=
  c4_unknown_name [([65], addProcedure)] [109] [] (by decide) rfl


/-!
Server-side concurrency: the HTTP handler goroutines, the rendezvous
channels `rch`/`wch` of `serverConn`, the reader that survives between
`Serve` iterations, and the staging `buffer` that is cleared only by a
flush.

The serving loop's reads go through `serverConn.Read`: a read of a
non-empty buffer first runs `sync()`, which dequeues the next request
from `rch` only when the current reader is exhausted, and then copies
from the current reader only — a single read never spans two requests
(short reads leave the zero-initialized tail of the destination buffer
untouched, and `wire` ignores read counts).  Consequently an iteration
that does not consume its whole request leaves leftover bytes that feed
later iterations without a dequeue, and an iteration whose request runs
out mid-decode dequeues the next request mid-iteration and keeps
decoding into its bytes.  The staging buffer is appended to by every
encode and cleared only by `WriteTo`, so an iteration that fails after
encoding (a return-value encode error) leaves its staged bytes to be
prepended to the next flush.  `MStream` models this read source: the
current reader's remaining bytes, the request bodies the scheduler will
hand over in order, how many have been dequeued, and whether a read
blocked waiting on `rch` with no request available.
-/

/-- The byte source `Serve` reads from: the remaining bytes of
`serverConn.r`, the request bodies that handler goroutines will send on
`rch` (in the order the scheduler delivers them), the number of bodies
dequeued so far, and whether a read blocked on an empty `rch` (the loop
then waits forever inside the iteration; no further transition fires). -/
structure MStream where
  cur : List Nat
  queue : List (List Nat)
  used : Nat
  blocked : Bool

/-- One `serverConn.Read` into a `make([]byte, k)` buffer: a zero-length
read returns immediately; otherwise `sync()` dequeues the next request
body exactly when the current reader is exhausted (blocking if none is
available), and the copy takes at most the current reader's remaining
bytes, zero-padding the rest of the destination. -/
def readBytesM (k : Nat) (st : MStream) : List Nat × MStream :=
  if k = 0 then ([], st)
  else if st.blocked then (List.replicate k 0, st)
  else
    match st.cur with
    | [] =>
      match st.queue with
      | [] => (List.replicate k 0, ⟨[], [], st.used, true⟩)
      | q :: qs =>
        match readBytes k q with
        | (bs, q') => (bs, ⟨q', qs, st.used + 1, false⟩)
    | b :: s =>
      match readBytes k (b :: s) with
      | (bs, cur') => (bs, ⟨cur', st.queue, st.used, false⟩)

/-- A one-byte read (the kind tag reads of the decoder). -/
def readByteM (st : MStream) : Nat × MStream :=
  match readBytesM 1 st with
  | (bs, st') => (bs.headD 0, st')

/-- `Decoder.decodeInt` over the connection: read `uintSize` bytes and
reinterpret. -/
def readIntM (st : MStream) : Nat × MStream :=
  match readBytesM uintSize st with
  | (bs, st') => (fromLE bs, st')

/-- Run an element decoder `n` times, threading the connection state
(also on failure: the failed attempt has consumed its reads). -/
def decodeNM (dec : MStream → Except DecErr GoVal × MStream) :
    Nat → MStream → Except DecErr (List GoVal) × MStream
  | 0, st => (.ok [], st)
  | n + 1, st =>
    match dec st with
    | (.error e, st') => (.error e, st')
    | (.ok v, st') =>
      match decodeNM dec n st' with
      | (.error e, st'') => (.error e, st'')
      | (.ok vs, st'') => (.ok (v :: vs), st'')

/-- Run a key decoder then a value decoder, `n` times, threading the
connection state. -/
def decodePairsNM (decK decV : MStream → Except DecErr GoVal × MStream) :
    Nat → MStream → Except DecErr (List (GoVal × GoVal)) × MStream
  | 0, st => (.ok [], st)
  | n + 1, st =>
    match decK st with
    | (.error e, st') => (.error e, st')
    | (.ok k, st') =>
      match decV st' with
      | (.error e, st'') => (.error e, st'')
      | (.ok v, st'') =>
        match decodePairsNM decK decV n st'' with
        | (.error e, st''') => (.error e, st''')
        | (.ok es, st''') => (.ok ((k, v) :: es), st''')

mutual

/-- `Decoder.DecodeValue` reading from the server connection.  The same
dispatch as `decodeValue`, but over `MStream`, and returning the
connection state also on failure: a failed decode has still consumed its
reads, which is what leaves leftover bytes for later iterations. -/
def decodeValueM : GoTy → MStream → Except DecErr GoVal × MStream
  | .scalar sk, st =>
    match readByteM st with
    | (b, st1) =>
      if b = sk.tag then
        match readBytesM sk.size st1 with
        | (bs, st2) => (.ok (.scalar sk (fromLE bs)), st2)
      else (.error .incompatibleValue, st1)
  | .array n elem, st =>
    match readByteM st with
    | (b, st1) =>
      if b = 17 then
        match readIntM st1 with
        | (m, st2) =>
          if m = n then
            match decodeNM (decodeValueM elem) m st2 with
            | (.error e, st3) => (.error e, st3)
            | (.ok xs, st3) => (.ok (.array elem xs), st3)
          else (.error .arrayLengthMismatch, st2)
      else (.error .incompatibleValue, st1)
  | .slice elem, st =>
    match readByteM st with
    | (b, st1) =>
      if b = 23 then
        match readIntM st1 with
        | (m, st2) =>
          match decodeNM (decodeValueM elem) m st2 with
          | (.error e, st3) => (.error e, st3)
          | (.ok xs, st3) => (.ok (.slice elem xs), st3)
      else (.error .incompatibleValue, st1)
  | .str, st =>
    match readByteM st with
    | (b, st1) =>
      if b = 24 then
        match readIntM st1 with
        | (m, st2) =>
          match readBytesM m st2 with
          | (bs, st3) => (.ok (.str bs), st3)
      else (.error .incompatibleValue, st1)
  | .map kt vt, st =>
    match readByteM st with
    | (b, st1) =>
      if b = 21 then
        match readIntM st1 with
        | (m, st2) =>
          match decodePairsNM (decodeValueM kt) (decodeValueM vt) m st2 with
          | (.error e, st3) => (.error e, st3)
          | (.ok es, st3) => (.ok (.map kt vt (mapFromPairs es)), st3)
      else (.error .incompatibleValue, st1)
  | .struct tys, st =>
    match readByteM st with
    | (b, st1) =>
      if b = 25 then
        match readIntM st1 with
        | (m, st2) =>
          if m = tys.length then
            match decodeTysM tys st2 with
            | (.error e, st3) => (.error e, st3)
            | (.ok vs, st3) => (.ok (.struct (vs.map fun v => (true, v))), st3)
          else (.error .fieldCountMismatch, st2)
      else (.error .incompatibleValue, st1)
  | .unsup k, st =>
    match readByteM st with
    | (b, st1) =>
      if b = k.tag then (.error .unsupportedType, st1)
      else (.error .incompatibleValue, st1)

/-- Decode one value per type (the server's argument decoding), over the
connection. -/
def decodeTysM : List GoTy → MStream → Except DecErr (List GoVal) × MStream
  | [], st => (.ok [], st)
  | t :: ts, st =>
    match decodeValueM t st with
    | (.error e, st') => (.error e, st')
    | (.ok v, st') =>
      match decodeTysM ts st' with
      | (.error e, st'') => (.error e, st'')
      | (.ok vs, st'') => (.ok (v :: vs), st'')

end

/-- Decode into a string destination over the connection
(`Decode(&name)` in `Serve`). -/
def decodeStringM (st : MStream) : Except DecErr (List Nat) × MStream :=
  match decodeValueM .str st with
  | (.ok (.str bs), st') => (.ok bs, st')
  | (.ok _, st') => (.error .incompatibleValue, st')
  | (.error e, st') => (.error e, st')

/-- The outcome of one `Server.Serve` iteration over the connection:
either the iteration reached the final `buf.WriteTo`, flushing the whole
staging buffer (any stale bytes of a previously failed iteration
included) as one response, or it returned an error first, leaving the
staging buffer (with whatever the iteration staged before failing) and
the connection state behind for the next iteration. -/
inductive IterResult where
  | flushed (resp : List Nat) (st : MStream)
  | failed (err : ServeErr) (buf : List Nat) (st : MStream)

/-- One `Server.Serve` iteration as the serving loop runs it: decode the
name and arguments from the connection (consuming leftovers first and
dequeuing further request bodies whenever the reader runs dry), call the
procedure, stage the failure message — and the outputs when the failure
is nil — into the buffer `buf` carried over from previous iterations,
and flush the whole buffer.  A return-value encode error aborts before
the flush, leaving the already-staged bytes (the empty failure message
and the partial output bytes) in the buffer. -/
def serveM (procs : List (List Nat × Procedure)) (st : MStream) (buf : List Nat) :
    IterResult :=
  match decodeStringM st with
  | (.error e, st1) => .failed (.nameDecodeError e) buf st1
  | (.ok name, st1) =>
    match procs.lookup name with
    | none => .failed .invalidName buf st1
    | some p =>
      match decodeTysM p.inTys st1 with
      | (.error e, st2) => .failed (.inputDecodeError e) buf st2
      | (.ok ins, st2) =>
        match p.call ins with
        | (_, some msg) => .flushed (buf ++ (encodeValue false (.str msg)).1) st2
        | (outs, none) =>
          match encodeList false outs with
          | (bytes, some e) =>
            .failed (.returnEncodeError e)
              (buf ++ (encodeValue false (.str [])).1 ++ bytes) st2
          | (bytes, none) =>
            .flushed (buf ++ (encodeValue false (.str [])).1 ++ bytes) st2

theorem readBytesM_exact (l cur2 : List Nat) (q : List (List Nat)) (u : Nat) :
    readBytesM l.length ⟨l ++ cur2, q, u, false⟩ = (l, ⟨cur2, q, u, false⟩) := by
  cases l with
  | nil => simp [readBytesM]
  | cons b bs =>
    have hr := readBytes_append (b :: bs) cur2
    simp only [List.length_cons, List.cons_append] at hr
    simp [readBytesM, hr]

theorem readBytesM_toLE (k n : Nat) (cur2 : List Nat) (q : List (List Nat)) (u : Nat) :
    readBytesM k ⟨toLE k n ++ cur2, q, u, false⟩ = (toLE k n, ⟨cur2, q, u, false⟩) := by
  have h := readBytesM_exact (toLE k n) cur2 q u
  rwa [toLE_length] at h

theorem readByteM_cons (b : Nat) (s : List Nat) (q : List (List Nat)) (u : Nat) :
    readByteM ⟨b :: s, q, u, false⟩ = (b, ⟨s, q, u, false⟩) := by
  have h := readBytesM_exact [b] s q u
  simp only [List.length_cons, List.length_nil, List.cons_append, List.nil_append] at h
  simp [readByteM, h]

theorem readIntM_exact (n : Nat) (h : n < 2 ^ (8 * uintSize)) (cur2 : List Nat)
    (q : List (List Nat)) (u : Nat) :
    readIntM ⟨encInt n ++ cur2, q, u, false⟩ = (n, ⟨cur2, q, u, false⟩) := by
  have hb := readBytesM_toLE uintSize n cur2 q u
  simp only [readIntM, encInt, hb, fromLE_toLE]
  congr 1
  rw [show (256 : Nat) ^ uintSize = 2 ^ (8 * uintSize) by rw [Nat.pow_mul]]
  exact Nat.mod_eq_of_lt h

theorem decodeValueM_scalar (sk : ScalarKind) (s : List Nat) (q : List (List Nat))
    (u : Nat) :
    decodeValueM (.scalar sk) ⟨sk.tag :: s, q, u, false⟩ =
      (match readBytesM sk.size ⟨s, q, u, false⟩ with
        | (bs, st2) => (.ok (.scalar sk (fromLE bs)), st2)) := by
  unfold decodeValueM
  rw [readByteM_cons]
  simp only [reduceIte]

theorem decodeValueM_str_step {m : Nat} {s1 : List Nat} {q : List (List Nat)} {u : Nat}
    {st2 : MStream} (hr : readIntM ⟨s1, q, u, false⟩ = (m, st2)) :
    decodeValueM .str ⟨24 :: s1, q, u, false⟩ =
      (match readBytesM m st2 with
        | (bs, st3) => (.ok (.str bs), st3)) := by
  unfold decodeValueM
  rw [readByteM_cons]
  simp only [hr, reduceIte]

theorem decodeValueM_array_step {elem : GoTy} {n m : Nat} {s1 : List Nat}
    {q : List (List Nat)} {u : Nat} {st2 : MStream}
    (hr : readIntM ⟨s1, q, u, false⟩ = (m, st2)) :
    decodeValueM (.array n elem) ⟨17 :: s1, q, u, false⟩ =
      (if m = n then
        match decodeNM (decodeValueM elem) m st2 with
        | (.error e, st3) => (.error e, st3)
        | (.ok xs, st3) => (.ok (.array elem xs), st3)
      else (.error .arrayLengthMismatch, st2)) := by
  unfold decodeValueM
  rw [readByteM_cons]
  simp only [hr, reduceIte]

theorem decodeValueM_slice_step {elem : GoTy} {m : Nat} {s1 : List Nat}
    {q : List (List Nat)} {u : Nat} {st2 : MStream}
    (hr : readIntM ⟨s1, q, u, false⟩ = (m, st2)) :
    decodeValueM (.slice elem) ⟨23 :: s1, q, u, false⟩ =
      (match decodeNM (decodeValueM elem) m st2 with
        | (.error e, st3) => (.error e, st3)
        | (.ok xs, st3) => (.ok (.slice elem xs), st3)) := by
  unfold decodeValueM
  rw [readByteM_cons]
  simp only [hr, reduceIte]

theorem decodeValueM_map_step {kt vt : GoTy} {m : Nat} {s1 : List Nat}
    {q : List (List Nat)} {u : Nat} {st2 : MStream}
    (hr : readIntM ⟨s1, q, u, false⟩ = (m, st2)) :
    decodeValueM (.map kt vt) ⟨21 :: s1, q, u, false⟩ =
      (match decodePairsNM (decodeValueM kt) (decodeValueM vt) m st2 with
        | (.error e, st3) => (.error e, st3)
        | (.ok es, st3) => (.ok (.map kt vt (mapFromPairs es)), st3)) := by
  unfold decodeValueM
  rw [readByteM_cons]
  simp only [hr, reduceIte]

theorem decodeValueM_struct_step {tys : List GoTy} {m : Nat} {s1 : List Nat}
    {q : List (List Nat)} {u : Nat} {st2 : MStream}
    (hr : readIntM ⟨s1, q, u, false⟩ = (m, st2)) :
    decodeValueM (.struct tys) ⟨25 :: s1, q, u, false⟩ =
      (if m = tys.length then
        match decodeTysM tys st2 with
        | (.error e, st3) => (.error e, st3)
        | (.ok vs, st3) => (.ok (.struct (vs.map fun v => (true, v))), st3)
      else (.error .fieldCountMismatch, st2)) := by
  unfold decodeValueM
  rw [readByteM_cons]
  simp only [hr, reduceIte]

mutual

/-- Round trip over the connection: when the encoding of a supported
value sits at the front of the current reader, decoding it consumes
exactly those bytes — no read runs dry, so no request is dequeued and
nothing of the queue or dequeue count changes. -/
theorem decodeM_encode : ∀ (v : GoVal) (cur2 : List Nat) (q : List (List Nat)) (u : Nat),
    supported v = true →
    decodeValueM (tyOf v) ⟨(encodeValue false v).1 ++ cur2, q, u, false⟩ =
      (.ok v, ⟨cur2, q, u, false⟩)
  | .scalar sk bits, cur2, q, u, h => by
    simp only [supported, decide_eq_true_eq] at h
    show decodeValueM (.scalar sk) ⟨(sk.tag :: toLE sk.size bits) ++ cur2, q, u, false⟩ =
      (.ok (.scalar sk bits), ⟨cur2, q, u, false⟩)
    rw [List.cons_append, decodeValueM_scalar, readBytesM_toLE]
    simp only [fromLE_toLE_of_lt sk.size bits h]
  | .str bs, cur2, q, u, h => by
    simp only [supported, Bool.and_eq_true, decide_eq_true_eq] at h
    obtain ⟨hlen, _⟩ := h
    show decodeValueM .str ⟨(24 :: (encInt bs.length ++ bs)) ++ cur2, q, u, false⟩ =
      (.ok (.str bs), ⟨cur2, q, u, false⟩)
    rw [List.cons_append, List.append_assoc,
      decodeValueM_str_step (readIntM_exact bs.length hlen (bs ++ cur2) q u),
      readBytesM_exact bs cur2 q u]
  | .array elem xs, cur2, q, u, h => by
    simp only [supported, Bool.and_eq_true, decide_eq_true_eq] at h
    obtain ⟨hlen, hxs⟩ := h
    show decodeValueM (.array xs.length elem)
        ⟨(17 :: (encInt xs.length ++ (encodeList false xs).1)) ++ cur2, q, u, false⟩ =
      (.ok (.array elem xs), ⟨cur2, q, u, false⟩)
    rw [List.cons_append, List.append_assoc,
      decodeValueM_array_step
        (readIntM_exact xs.length hlen ((encodeList false xs).1 ++ cur2) q u)]
    simp only [eq_self_iff_true, if_true]
    rw [decodeM_encode_list elem xs cur2 q u hxs]
  | .slice elem xs, cur2, q, u, h => by
    simp only [supported, Bool.and_eq_true, decide_eq_true_eq] at h
    obtain ⟨hlen, hxs⟩ := h
    show decodeValueM (.slice elem)
        ⟨(23 :: (encInt xs.length ++ (encodeList false xs).1)) ++ cur2, q, u, false⟩ =
      (.ok (.slice elem xs), ⟨cur2, q, u, false⟩)
    rw [List.cons_append, List.append_assoc,
      decodeValueM_slice_step
        (readIntM_exact xs.length hlen ((encodeList false xs).1 ++ cur2) q u)]
    rw [decodeM_encode_list elem xs cur2 q u hxs]
  | .map kt vt es, cur2, q, u, h => by
    simp only [supported, Bool.and_eq_true, decide_eq_true_eq] at h
    obtain ⟨⟨⟨hlen, _⟩, hps⟩, hnd⟩ := h
    show decodeValueM (.map kt vt)
        ⟨(21 :: (encInt es.length ++ (encodePairs false es).1)) ++ cur2, q, u, false⟩ =
      (.ok (.map kt vt es), ⟨cur2, q, u, false⟩)
    rw [List.cons_append, List.append_assoc,
      decodeValueM_map_step
        (readIntM_exact es.length hlen ((encodePairs false es).1 ++ cur2) q u)]
    rw [decodeM_encode_pairs kt vt es cur2 q u hps]
    show ((.ok (.map kt vt (mapFromPairs es)), ⟨cur2, q, u, false⟩) :
        Except DecErr GoVal × MStream) =
      (.ok (.map kt vt es), ⟨cur2, q, u, false⟩)
    rw [mapFromPairs_nodup es hnd]
  | .struct fs, cur2, q, u, h => by
    simp only [supported, Bool.and_eq_true, decide_eq_true_eq] at h
    obtain ⟨hlen, hfs⟩ := h
    show decodeValueM (.struct (tyOfFields fs))
        ⟨(25 :: (encInt fs.length ++ (encodeFields false fs).1)) ++ cur2, q, u, false⟩ =
      (.ok (.struct fs), ⟨cur2, q, u, false⟩)
    rw [List.cons_append, List.append_assoc,
      decodeValueM_struct_step
        (readIntM_exact fs.length hlen ((encodeFields false fs).1 ++ cur2) q u)]
    rw [tyOfFields_length]
    simp only [eq_self_iff_true, if_true]
    rw [decodeM_encode_fields fs cur2 q u hfs]
    have hmap : (fs.map Prod.snd).map (fun v => (true, v)) = fs := by
      rw [List.map_map]
      exact supportedFields_exported fs hfs
    show ((.ok (.struct ((fs.map Prod.snd).map fun v => (true, v))), ⟨cur2, q, u, false⟩) :
        Except DecErr GoVal × MStream) =
      (.ok (.struct fs), ⟨cur2, q, u, false⟩)
    rw [hmap]
  | .unsup k, cur2, q, u, h => by simp [supported] at h

theorem decodeM_encode_list : ∀ (elem : GoTy) (xs : List GoVal) (cur2 : List Nat)
    (q : List (List Nat)) (u : Nat), supportedElems elem xs = true →
    decodeNM (decodeValueM elem) xs.length ⟨(encodeList false xs).1 ++ cur2, q, u, false⟩ =
      (.ok xs, ⟨cur2, q, u, false⟩)
  | _, [], cur2, q, u, _ => rfl
  | elem, x :: xs, cur2, q, u, h => by
    simp only [supportedElems, Bool.and_eq_true, decide_eq_true_eq] at h
    obtain ⟨⟨hx, hty⟩, hxs⟩ := h
    subst hty
    have he := encodeValue_ok x hx
    have hbytes : encodeList false (x :: xs) =
        ((encodeValue false x).1 ++ (encodeList false xs).1, (encodeList false xs).2) := by
      simp [encodeList, he]
    rw [hbytes]
    simp only [List.length_cons]
    rw [List.append_assoc]
    simp only [decodeNM,
      decodeM_encode x ((encodeList false xs).1 ++ cur2) q u hx,
      decodeM_encode_list (tyOf x) xs cur2 q u hxs]

theorem decodeM_encode_pairs : ∀ (kt vt : GoTy) (es : List (GoVal × GoVal))
    (cur2 : List Nat) (q : List (List Nat)) (u : Nat), supportedPairs kt vt es = true →
    decodePairsNM (decodeValueM kt) (decodeValueM vt) es.length
        ⟨(encodePairs false es).1 ++ cur2, q, u, false⟩ =
      (.ok es, ⟨cur2, q, u, false⟩)
  | _, _, [], cur2, q, u, _ => rfl
  | kt, vt, (k, v) :: es, cur2, q, u, h => by
    simp only [supportedPairs, Bool.and_eq_true, decide_eq_true_eq] at h
    obtain ⟨⟨⟨⟨hk, hkt⟩, hv⟩, hvt⟩, hes⟩ := h
    subst hkt
    subst hvt
    have hek := encodeValue_ok k hk
    have hev := encodeValue_ok v hv
    have hbytes : encodePairs false ((k, v) :: es) =
        ((encodeValue false k).1 ++ (encodeValue false v).1 ++ (encodePairs false es).1,
          (encodePairs false es).2) := by
      simp [encodePairs, hek, hev]
    rw [hbytes]
    simp only [List.length_cons]
    rw [List.append_assoc, List.append_assoc]
    simp only [decodePairsNM,
      decodeM_encode k ((encodeValue false v).1 ++ ((encodePairs false es).1 ++ cur2)) q u hk,
      decodeM_encode v ((encodePairs false es).1 ++ cur2) q u hv,
      decodeM_encode_pairs (tyOf k) (tyOf v) es cur2 q u hes]

theorem decodeM_encode_fields : ∀ (fs : List (Bool × GoVal)) (cur2 : List Nat)
    (q : List (List Nat)) (u : Nat), supportedFields fs = true →
    decodeTysM (tyOfFields fs) ⟨(encodeFields false fs).1 ++ cur2, q, u, false⟩ =
      (.ok (fs.map Prod.snd), ⟨cur2, q, u, false⟩)
  | [], cur2, q, u, _ => rfl
  | (e, v) :: fs, cur2, q, u, h => by
    simp only [supportedFields, Bool.and_eq_true] at h
    obtain ⟨⟨he, hv⟩, hfs⟩ := h
    subst he
    have henc := encodeValue_ok v hv
    have hbytes : encodeFields false ((true, v) :: fs) =
        ((encodeValue false v).1 ++ (encodeFields false fs).1, (encodeFields false fs).2) := by
      simp [encodeFields, henc]
    rw [hbytes]
    simp only [tyOfFields, List.map_cons]
    rw [List.append_assoc]
    simp only [decodeTysM,
      decodeM_encode v ((encodeFields false fs).1 ++ cur2) q u hv,
      decodeM_encode_fields fs cur2 q u hfs]

end

theorem decodeStringM_encode (bs : List Nat) (h : supported (.str bs) = true)
    (cur2 : List Nat) (q : List (List Nat)) (u : Nat) :
    decodeStringM ⟨(encodeValue false (.str bs)).1 ++ cur2, q, u, false⟩ =
      (.ok bs, ⟨cur2, q, u, false⟩) := by
  unfold decodeStringM
  rw [show decodeValueM GoTy.str ⟨(encodeValue false (.str bs)).1 ++ cur2, q, u, false⟩ =
    (.ok (.str bs), ⟨cur2, q, u, false⟩) from decodeM_encode (.str bs) cur2 q u h]

theorem decodeTysM_encodeList : ∀ (args : List GoVal) (cur2 : List Nat)
    (q : List (List Nat)) (u : Nat), (∀ a ∈ args, supported a = true) →
    decodeTysM (args.map tyOf) ⟨(encodeList false args).1 ++ cur2, q, u, false⟩ =
      (.ok args, ⟨cur2, q, u, false⟩) := by
  intro args
  induction args with
  | nil => intro cur2 q u _; rfl
  | cons a args ih =>
    intro cur2 q u h
    have ha := h a (List.mem_cons_self a args)
    have hrest := fun x hx => h x (List.mem_cons_of_mem a hx)
    have he := encodeValue_ok a ha
    have hbytes : encodeList false (a :: args) =
        ((encodeValue false a).1 ++ (encodeList false args).1, (encodeList false args).2) := by
      simp [encodeList, he]
    rw [hbytes]
    simp only [List.map_cons]
    rw [List.append_assoc]
    simp only [decodeTysM,
      decodeM_encode a ((encodeList false args).1 ++ cur2) q u ha,
      ih cur2 q u hrest]

theorem readByteM_fresh (b : Nat) (s : List Nat) (qs : List (List Nat)) (u : Nat) :
    readByteM ⟨[], (b :: s) :: qs, u, false⟩ = (b, ⟨s, qs, u + 1, false⟩) := by
  simp [readByteM, readBytesM, readBytes]

/-- When an iteration starts a decode with the reader exhausted, its
first (one-byte) read runs `sync()`, dequeuing the next non-empty
request body, after which the decode proceeds inside that body. -/
theorem decodeValueM_fresh (ty : GoTy) (b : Nat) (s : List Nat) (qs : List (List Nat))
    (u : Nat) :
    decodeValueM ty ⟨[], (b :: s) :: qs, u, false⟩ =
      decodeValueM ty ⟨b :: s, qs, u + 1, false⟩ := by
  cases ty <;> (unfold decodeValueM; rw [readByteM_fresh, readByteM_cons])

theorem decodeStringM_fresh (b : Nat) (s : List Nat) (qs : List (List Nat)) (u : Nat) :
    decodeStringM ⟨[], (b :: s) :: qs, u, false⟩ =
      decodeStringM ⟨b :: s, qs, u + 1, false⟩ := by
  unfold decodeStringM
  rw [decodeValueM_fresh]

/-- An iteration begun with the reader exhausted and no request
available blocks inside the first read of the name decode (in the
program: the loop sits on `<-rch` forever). -/
theorem serveM_starved (procs : List (List Nat × Procedure)) (u : Nat) (buf : List Nat) :
    serveM procs ⟨[], [], u, false⟩ buf =
      .failed (.nameDecodeError .incompatibleValue) buf ⟨[], [], u, true⟩ := rfl

theorem serveM_eq (procs : List (List Nat × Procedure)) (st : MStream)
    (name : List Nat) (st1 : MStream) (p : Procedure) (ins : List GoVal) (st2 : MStream)
    (buf : List Nat)
    (h1 : decodeStringM st = (.ok name, st1))
    (h2 : procs.lookup name = some p)
    (h3 : decodeTysM p.inTys st1 = (.ok ins, st2)) :
    serveM procs st buf =
      match p.call ins with
      | (_, some msg) => .flushed (buf ++ (encodeValue false (.str msg)).1) st2
      | (outs, none) =>
        match encodeList false outs with
        | (bytes, some e) =>
          .failed (.returnEncodeError e)
            (buf ++ (encodeValue false (.str [])).1 ++ bytes) st2
        | (bytes, none) =>
          .flushed (buf ++ (encodeValue false (.str [])).1 ++ bytes) st2 := by
  simp only [serveM, h1, h2, h3]

/-- A lockstep iteration: the reader is exhausted, the scheduler hands
over a request staged by a client stub whose name is registered with
matching argument types.  The first read dequeues exactly that one
request; the iteration consumes all of it, leaving the reader exhausted
again and the rest of the queue untouched. -/
theorem serveM_lockstep (procs : List (List Nat × Procedure)) (name : List Nat)
    (p : Procedure) (args : List GoVal)
    (hname : supported (.str name) = true)
    (hlookup : procs.lookup name = some p)
    (hargs : ∀ a ∈ args, supported a = true)
    (htys : p.inTys = args.map tyOf)
    (qs : List (List Nat)) (u : Nat) (buf : List Nat) :
    serveM procs ⟨[], (clientRequest name args).1 :: qs, u, false⟩ buf =
      match p.call args with
      | (_, some msg) =>
        .flushed (buf ++ (encodeValue false (.str msg)).1) ⟨[], qs, u + 1, false⟩
      | (outs, none) =>
        match encodeList false outs with
        | (bytes, some e) =>
          .failed (.returnEncodeError e)
            (buf ++ (encodeValue false (.str [])).1 ++ bytes) ⟨[], qs, u + 1, false⟩
        | (bytes, none) =>
          .flushed (buf ++ (encodeValue false (.str [])).1 ++ bytes)
            ⟨[], qs, u + 1, false⟩ := by
  have hcons : (clientRequest name args).1 =
      24 :: ((encInt name.length ++ name) ++ (encodeList false args).1) := by
    rw [clientRequest_bytes]
    exact List.cons_append 24 (encInt name.length ++ name) (encodeList false args).1
  have h1 : decodeStringM ⟨[], (clientRequest name args).1 :: qs, u, false⟩ =
      (.ok name, ⟨(encodeList false args).1, qs, u + 1, false⟩) := by
    rw [hcons, decodeStringM_fresh]
    have h := decodeStringM_encode name hname (encodeList false args).1 qs (u + 1)
    rw [show (encodeValue false (GoVal.str name)).1 ++ (encodeList false args).1 =
        24 :: ((encInt name.length ++ name) ++ (encodeList false args).1) from
      List.cons_append 24 (encInt name.length ++ name) (encodeList false args).1] at h
    exact h
  have h3 : decodeTysM p.inTys ⟨(encodeList false args).1, qs, u + 1, false⟩ =
      (.ok args, ⟨[], qs, u + 1, false⟩) := by
    rw [htys]
    have h := decodeTysM_encodeList args [] qs (u + 1) hargs
    rwa [List.append_nil] at h
  exact serveM_eq procs _ name _ p args _ buf h1 hlookup h3

theorem serveM_lockstep_err (procs : List (List Nat × Procedure)) (name : List Nat)
    (p : Procedure) (args : List GoVal) (outs : List GoVal) (msg : List Nat)
    (hname : supported (.str name) = true)
    (hlookup : procs.lookup name = some p)
    (hargs : ∀ a ∈ args, supported a = true)
    (htys : p.inTys = args.map tyOf)
    (hcall : p.call args = (outs, some msg))
    (qs : List (List Nat)) (u : Nat) (buf : List Nat) :
    serveM procs ⟨[], (clientRequest name args).1 :: qs, u, false⟩ buf =
      .flushed (buf ++ (encodeValue false (.str msg)).1) ⟨[], qs, u + 1, false⟩ := by
  rw [serveM_lockstep procs name p args hname hlookup hargs htys qs u buf, hcall]

theorem serveM_lockstep_ok (procs : List (List Nat × Procedure)) (name : List Nat)
    (p : Procedure) (args : List GoVal) (outs : List GoVal)
    (hname : supported (.str name) = true)
    (hlookup : procs.lookup name = some p)
    (hargs : ∀ a ∈ args, supported a = true)
    (htys : p.inTys = args.map tyOf)
    (hcall : p.call args = (outs, none))
    (henc : (encodeList false outs).2 = none)
    (qs : List (List Nat)) (u : Nat) (buf : List Nat) :
    serveM procs ⟨[], (clientRequest name args).1 :: qs, u, false⟩ buf =
      .flushed (buf ++ (encodeValue false (.str [])).1 ++ (encodeList false outs).1)
        ⟨[], qs, u + 1, false⟩ := by
  rw [serveM_lockstep procs name p args hname hlookup hargs htys qs u buf, hcall]
  have hsplit : encodeList false outs = ((encodeList false outs).1, none) := by
    conv_lhs => rw [show encodeList false outs =
      ((encodeList false outs).1, (encodeList false outs).2) from rfl, henc]
  show (match encodeList false outs with
    | (bytes, some e) =>
      IterResult.failed (.returnEncodeError e)
        (buf ++ (encodeValue false (GoVal.str [])).1 ++ bytes) ⟨[], qs, u + 1, false⟩
    | (bytes, none) =>
      IterResult.flushed (buf ++ (encodeValue false (GoVal.str [])).1 ++ bytes)
        ⟨[], qs, u + 1, false⟩) =
    IterResult.flushed
      (buf ++ (encodeValue false (GoVal.str [])).1 ++ (encodeList false outs).1)
      ⟨[], qs, u + 1, false⟩
  conv_lhs => rw [hsplit]

/-- Events observable on the two rendezvous channels: a handler's
request body being received by the loop (`<-x.rch` inside `sync`), and a
response leaving the loop (`x.wch <- r` inside the flush). -/
inductive SrvEvent where
  | dequeue (req : List Nat)
  | flush (resp : List Nat)

/-- Where the serving loop stands between transitions: ready to run the
next `Serve` iteration, or blocked in the final flush's `wch` send until
some handler receives the response. -/
inductive LoopPhase where
  | idle
  | replying (resp : List Nat)

/-- A snapshot of the server: request bodies whose handlers have not yet
rendezvoused on `rch`, the number of handlers blocked on `wch` awaiting
a response, the remaining bytes of the loop's current reader, the
staging buffer contents, the loop phase, and the channel event log (most
recent first). -/
structure SrvSys where
  pending : List (List Nat)
  waiting : Nat
  cur : List Nat
  buf : List Nat
  loop : LoopPhase
  log : List SrvEvent

/-- Interleaved execution steps.  An iteration step runs one `Serve`
call to completion: the scheduler picks which pending handlers feed the
reads that find the reader exhausted (`dequeued`, in rendezvous order,
any multiset of pending bodies — `sync()` runs on every read, so this
happens mid-iteration whenever the current request runs out early); the
step is enabled only if the iteration neither blocks on an empty `rch`
nor leaves picked handlers unconsumed.  A flushing iteration moves the
loop into the `wch` send; `reply` completes that rendezvous with one of
the waiting handlers.  A failing iteration flushes nothing and leaves
its staged bytes and reader leftovers in place. -/
inductive SrvStep (procs : List (List Nat × Procedure)) : SrvSys → SrvSys → Prop where
  | iterFlush (pending rest dequeued : List (List Nat)) (waiting : Nat)
      (cur buf : List Nat) (log : List SrvEvent) (resp : List Nat) (st : MStream)
      (hperm : pending.Perm (dequeued ++ rest))
      (hrun : serveM procs ⟨cur, dequeued, 0, false⟩ buf = .flushed resp st)
      (hused : st.used = dequeued.length) (hnb : st.blocked = false) :
      SrvStep procs ⟨pending, waiting, cur, buf, .idle, log⟩
        ⟨rest, waiting + dequeued.length, st.cur, [], .replying resp,
          (dequeued.map SrvEvent.dequeue).reverse ++ log⟩
  | iterFail (pending rest dequeued : List (List Nat)) (waiting : Nat)
      (cur buf : List Nat) (log : List SrvEvent) (err : ServeErr) (buf' : List Nat)
      (st : MStream)
      (hperm : pending.Perm (dequeued ++ rest))
      (hrun : serveM procs ⟨cur, dequeued, 0, false⟩ buf = .failed err buf' st)
      (hused : st.used = dequeued.length) (hnb : st.blocked = false) :
      SrvStep procs ⟨pending, waiting, cur, buf, .idle, log⟩
        ⟨rest, waiting + dequeued.length, st.cur, buf', .idle,
          (dequeued.map SrvEvent.dequeue).reverse ++ log⟩
  | reply (pending : List (List Nat)) (waiting : Nat) (cur buf : List Nat)
      (log : List SrvEvent) (resp : List Nat) (hw : 0 < waiting) :
      SrvStep procs ⟨pending, waiting, cur, buf, .replying resp, log⟩
        ⟨pending, waiting - 1, cur, buf, .idle, .flush resp :: log⟩

/-- The initial state: all inbound requests pending, a fresh exhausted
reader (`newReader(nil)`), an empty staging buffer, nothing logged. -/
def srvInit (reqs : List (List Nat)) : SrvSys :=
  ⟨reqs, 0, [], [], .idle, []⟩

/-- States reachable from serving the inbound requests `reqs`. -/
inductive SrvReach (procs : List (List Nat × Procedure)) (reqs : List (List Nat)) :
    SrvSys → Prop where
  | init : SrvReach procs reqs (srvInit reqs)
  | step (s s' : SrvSys) (h : SrvReach procs reqs s) (hs : SrvStep procs s s') :
      SrvReach procs reqs s'

/-- The response one full `Serve` iteration computes for a request taken
in isolation (used to say which flush a dequeued request should produce;
the machine itself runs `serveM`, which tracks leftovers, the staging
buffer and mid-iteration dequeues). -/
def serveProcess (procs : List (List Nat × Procedure)) (req : List Nat) :
    Option (List Nat) :=
  match serve procs req with
  | .ok (resp, _) => some resp
  | .error _ => none

/-- The event-log shape the claim asserts, read most-recent-first: a
sequence of complete per-request blocks, each either a dequeue whose
request fails (no flush), or a dequeue followed by the flush of exactly
the response `Serve` computes for that request. -/
inductive RevLogOk (process : List Nat → Option (List Nat)) : List SrvEvent → Prop where
  | nil : RevLogOk process []
  | errIter (req : List Nat) (rest : List SrvEvent) (h : process req = none)
      (hrest : RevLogOk process rest) : RevLogOk process (.dequeue req :: rest)
  | okIter (req resp : List Nat) (rest : List SrvEvent)
      (h : process req = some resp) (hrest : RevLogOk process rest) :
      RevLogOk process (.flush resp :: .dequeue req :: rest)

/-- A log is serialized when it is a sequence of complete per-request
blocks, possibly with one block still open: its request dequeued, its
response computed and awaiting the flush rendezvous. -/
def Serialized (process : List Nat → Option (List Nat)) (log : List SrvEvent) : Prop :=
  RevLogOk process log ∨
    ∃ req rest, log = .dequeue req :: rest ∧
      (∃ resp, process req = some resp) ∧ RevLogOk process rest

/-- A request that is one complete client-stub call to a registered
procedure: staged by `Client.Bind`'s stub from supported arguments whose
types match the registration, with outputs the encoder supports whenever
the call succeeds.  This is the traffic the packages are designed to
exchange; outside it `Serve` can leave reader leftovers or staged bytes
behind (see the C9 counterexample). -/
def WellFormedCall (procs : List (List Nat × Procedure)) (req : List Nat) : Prop :=
  ∃ name args p,
    req = (clientRequest name args).1 ∧
    supported (.str name) = true ∧
    procs.lookup name = some p ∧
    p.inTys = args.map tyOf ∧
    (∀ a ∈ args, supported a = true) ∧
    (∀ outs, p.call args = (outs, none) → (encodeList false outs).2 = none)

theorem serveProcess_err (procs : List (List Nat × Procedure)) (name : List Nat)
    (p : Procedure) (args : List GoVal) (outs : List GoVal) (msg : List Nat)
    (hname : supported (.str name) = true)
    (hlookup : procs.lookup name = some p)
    (hargs : ∀ a ∈ args, supported a = true)
    (htys : p.inTys = args.map tyOf)
    (hcall : p.call args = (outs, some msg)) :
    serveProcess procs (clientRequest name args).1 =
      some (encodeValue false (.str msg)).1 := by
  have hstream : (clientRequest name args).1 =
      (encodeValue false (.str name)).1 ++ ((encodeList false args).1 ++ []) := by
    rw [clientRequest_bytes, List.append_nil]
  have h1 := decodeString_encodeString name hname ((encodeList false args).1 ++ [])
  have h3 : decodeTys p.inTys ((encodeList false args).1 ++ []) = .ok (args, []) := by
    rw [htys]
    exact decodeTys_encodeList args [] hargs
  unfold serveProcess
  rw [hstream, serve_eq procs _ name _ p args [] h1 hlookup h3, hcall]

theorem serveProcess_ok (procs : List (List Nat × Procedure)) (name : List Nat)
    (p : Procedure) (args : List GoVal) (outs : List GoVal)
    (hname : supported (.str name) = true)
    (hlookup : procs.lookup name = some p)
    (hargs : ∀ a ∈ args, supported a = true)
    (htys : p.inTys = args.map tyOf)
    (hcall : p.call args = (outs, none))
    (henc : (encodeList false outs).2 = none) :
    serveProcess procs (clientRequest name args).1 =
      some ((encodeValue false (.str [])).1 ++ (encodeList false outs).1) := by
  have hstream : (clientRequest name args).1 =
      (encodeValue false (.str name)).1 ++ ((encodeList false args).1 ++ []) := by
    rw [clientRequest_bytes, List.append_nil]
  have h1 := decodeString_encodeString name hname ((encodeList false args).1 ++ [])
  have h3 : decodeTys p.inTys ((encodeList false args).1 ++ []) = .ok (args, []) := by
    rw [htys]
    exact decodeTys_encodeList args [] hargs
  have hsplit : encodeList false outs = ((encodeList false outs).1, none) := by
    conv_lhs => rw [show encodeList false outs =
      ((encodeList false outs).1, (encodeList false outs).2) from rfl, henc]
  unfold serveProcess
  rw [hstream, serve_eq procs _ name _ p args [] h1 hlookup h3, hcall]
  show (match
      ((match encodeList false outs with
        | (_, some e) => Except.error (ServeErr.returnEncodeError e)
        | (bytes, none) => Except.ok ((encodeValue false (GoVal.str [])).1 ++ bytes, [])) :
        Except ServeErr (List Nat × List Nat)) with
    | Except.ok (resp, _) => some resp
    | Except.error _ => none) =
    some ((encodeValue false (GoVal.str [])).1 ++ (encodeList false outs).1)
  conv_lhs => rw [hsplit]

/-- The lockstep invariant under well-formed traffic: pending requests
stay well formed, at every transition boundary the reader is exhausted
and the staging buffer empty, and the log is a sequence of complete
per-request blocks (with the open block's response recorded while the
loop awaits the flush rendezvous). -/
def SrvInv (procs : List (List Nat × Procedure)) (s : SrvSys) : Prop :=
  (∀ r ∈ s.pending, WellFormedCall procs r) ∧
  s.cur = [] ∧ s.buf = [] ∧
  (match s.loop with
   | .idle => RevLogOk (serveProcess procs) s.log
   | .replying resp => ∃ req rest, s.log = .dequeue req :: rest ∧
       serveProcess procs req = some resp ∧ RevLogOk (serveProcess procs) rest)

theorem srvInv_init (procs : List (List Nat × Procedure)) (reqs : List (List Nat))
    (hwf : ∀ r ∈ reqs, WellFormedCall procs r) : SrvInv procs (srvInit reqs) := by
  simp only [SrvInv, srvInit]
  exact ⟨hwf, trivial, trivial, RevLogOk.nil⟩

theorem srvInv_step (procs : List (List Nat × Procedure)) (s s' : SrvSys)
    (hinv : SrvInv procs s) (hstep : SrvStep procs s s') : SrvInv procs s' := by
  cases hstep with
  | iterFlush pending rest dequeued waiting cur buf log resp st hperm hrun hused hnb =>
    simp only [SrvInv] at hinv
    obtain ⟨hwf, hcur, hbuf, hlog⟩ := hinv
    subst hcur
    subst hbuf
    cases dequeued with
    | nil =>
      rw [serveM_starved] at hrun
      exact IterResult.noConfusion hrun
    | cons req dq =>
      have hreqwf : WellFormedCall procs req := by
        apply hwf
        exact (hperm.mem_iff).2 (List.mem_append_left _ (List.mem_cons_self req dq))
      unfold WellFormedCall at hreqwf
      obtain ⟨name, args, p, hre, hname, hlookup, htys, hargs, houts⟩ := hreqwf
      subst hre
      rcases hcp : p.call args with ⟨outs, merr⟩
      cases merr with
      | some msg =>
        have hls := serveM_lockstep_err procs name p args outs msg hname hlookup hargs
          htys hcp dq 0 []
        rw [hls] at hrun
        injection hrun with h1 h2
        cases dq with
        | cons r2 dq' =>
          rw [← h2] at hused
          simp at hused
        | nil =>
          subst h1
          simp only [SrvInv]
          refine ⟨?_, ?_, trivial, ?_⟩
          · intro r hr
            exact hwf r ((hperm.mem_iff).2 (List.mem_append_right _ hr))
          · rw [← h2]
          · exact ⟨(clientRequest name args).1, log, rfl, by
              simpa using
                serveProcess_err procs name p args outs msg hname hlookup hargs htys hcp,
              hlog⟩
      | none =>
        have henc := houts outs hcp
        have hls := serveM_lockstep_ok procs name p args outs hname hlookup hargs
          htys hcp henc dq 0 []
        rw [hls] at hrun
        injection hrun with h1 h2
        cases dq with
        | cons r2 dq' =>
          rw [← h2] at hused
          simp at hused
        | nil =>
          subst h1
          simp only [SrvInv]
          refine ⟨?_, ?_, trivial, ?_⟩
          · intro r hr
            exact hwf r ((hperm.mem_iff).2 (List.mem_append_right _ hr))
          · rw [← h2]
          · exact ⟨(clientRequest name args).1, log, rfl, by
              simpa using
                serveProcess_ok procs name p args outs hname hlookup hargs htys hcp henc,
              hlog⟩
  | iterFail pending rest dequeued waiting cur buf log err buf' st hperm hrun hused hnb =>
    simp only [SrvInv] at hinv
    obtain ⟨hwf, hcur, hbuf, hlog⟩ := hinv
    subst hcur
    subst hbuf
    cases dequeued with
    | nil =>
      rw [serveM_starved] at hrun
      injection hrun with h1 h2 h3
      rw [← h3] at hnb
      simp at hnb
    | cons req dq =>
      have hreqwf : WellFormedCall procs req := by
        apply hwf
        exact (hperm.mem_iff).2 (List.mem_append_left _ (List.mem_cons_self req dq))
      unfold WellFormedCall at hreqwf
      obtain ⟨name, args, p, hre, hname, hlookup, htys, hargs, houts⟩ := hreqwf
      subst hre
      rcases hcp : p.call args with ⟨outs, merr⟩
      cases merr with
      | some msg =>
        have hls := serveM_lockstep_err procs name p args outs msg hname hlookup hargs
          htys hcp dq 0 []
        rw [hls] at hrun
        exact IterResult.noConfusion hrun
      | none =>
        have henc := houts outs hcp
        have hls := serveM_lockstep_ok procs name p args outs hname hlookup hargs
          htys hcp henc dq 0 []
        rw [hls] at hrun
        exact IterResult.noConfusion hrun
  | reply pending waiting cur buf log resp hw =>
    simp only [SrvInv] at hinv
    obtain ⟨hwf, hcur, hbuf, hrep⟩ := hinv
    obtain ⟨req, restl, hlogeq, hproc, hrest⟩ := hrep
    subst hlogeq
    simp only [SrvInv]
    exact ⟨hwf, hcur, hbuf, RevLogOk.okIter req resp restl hproc hrest⟩

theorem srvInv_reach (procs : List (List Nat × Procedure)) (reqs : List (List Nat))
    (hwf : ∀ r ∈ reqs, WellFormedCall procs r) (s : SrvSys)
    (h : SrvReach procs reqs s) : SrvInv procs s := by
  induction h with
  | init => exact srvInv_init procs reqs hwf
  | step s1 s2 h1 hs ih => exact srvInv_step procs s1 s2 ih hs

/-- A procedure with no arguments and no outputs (`func() error`
returning nil): `procedure.call` yields no outputs and a nil failure. -/
def nullProcedure : Procedure where
  inTys := []
  call := fun _ => ([], none)

/-- C9 counterexample: the claim fails on the code for legal stub
traffic.  One handler posts the stub request for name "m" (byte 109,
unregistered) with one string argument "F", against a server that
registers `nullProcedure` under "F" (byte 70).  The first iteration
dequeues the request, fails at the name lookup, and leaves the encoded
argument as reader leftovers (`sync()` dequeues only when the reader is
exhausted, and nothing rewinds it on error).  The second iteration then
decodes those leftovers as a call name — "F", which is registered — and
flushes a response, without any dequeue of its own.  The resulting
reachable log, a flush on top of a dequeue whose request `Serve`
computes no response for, fits no serialization of the stream into
per-request blocks: the flushed bytes answer no dequeued request. -/
theorem c9_counterexample :
    SrvReach [([70], nullProcedure)] [(clientRequest [109] [.str [70]]).1]
      ⟨[], 0, [], [], .idle,
        [.flush (encodeValue false (.str [])).1,
         .dequeue (clientRequest [109] [.str [70]]).1]⟩ ∧
    ¬ Serialized (serveProcess [([70], nullProcedure)])
      [.flush (encodeValue false (.str [])).1,
       .dequeue (clientRequest [109] [.str [70]]).1] := by
  constructor
  · exact SrvReach.step _ _
      (SrvReach.step _ _
        (SrvReach.step _ _ SrvReach.init
          (SrvStep.iterFail [(clientRequest [109] [.str [70]]).1] []
            [(clientRequest [109] [.str [70]]).1] 0 [] [] [] ServeErr.invalidName []
            ⟨(encodeValue false (.str [70])).1, [], 1, false⟩
            (List.Perm.refl _) rfl rfl rfl))
        (SrvStep.iterFlush [] [] [] 1 (encodeValue false (.str [70])).1 []
          [SrvEvent.dequeue (clientRequest [109] [.str [70]]).1]
          (encodeValue false (.str [])).1 ⟨[], [], 0, false⟩
          (List.Perm.refl _) rfl rfl rfl))
      (SrvStep.reply [] 1 [] []
        [SrvEvent.dequeue (clientRequest [109] [.str [70]]).1]
        (encodeValue false (.str [])).1 Nat.one_pos)
  · intro hser
    rcases hser with hok | ⟨req, restl, heq, -, -⟩
    · cases hok with
      | okIter req resp restl hp hrest =>
        rw [show serveProcess [([70], nullProcedure)]
            (clientRequest [109] [GoVal.str [70]]).1 = none from rfl] at hp
        exact Option.noConfusion hp
    · simp at heq

/-- C9 (amended): under well-formed traffic — every inbound request is
one complete client-stub call to a registered procedure with matching
supported arguments and encodable outputs — every reachable state of the
interleaved execution has a serialized channel log: requests are
dequeued one per iteration, each full Serve iteration (decode, execute,
encode, flush) completes before the next request is dequeued, and every
flush carries exactly the response Serve computes for the immediately
preceding dequeue, so the bytes of two distinct calls are never
interleaved on the stream.  Outside this hypothesis the guarantee fails
on the code (see the counterexample): a partially consumed request feeds
later iterations without a dequeue, a request that runs dry mid-decode
makes the iteration dequeue the next request mid-way, and an iteration
failing after encoding leaves staged bytes that prepend the next flush. -/
theorem c9_serialized (procs : List (List Nat × Procedure)) (reqs : List (List Nat))
    (s : SrvSys) (hwf : ∀ r ∈ reqs, WellFormedCall procs r)
    (h : SrvReach procs reqs s) : Serialized (serveProcess procs) s.log := by
  have hinv := srvInv_reach procs reqs hwf s h
  simp only [SrvInv] at hinv
  obtain ⟨-, -, -, hloop⟩ := hinv
  unfold Serialized
  cases hl : s.loop with
  | idle =>
    rw [hl] at hloop
    exact Or.inl hloop
  | replying resp =>
    rw [hl] at hloop
    obtain ⟨req, restl, h1, h2, h3⟩ := hloop
    exact Or.inr ⟨req, restl, h1, ⟨resp, h2⟩, h3⟩

theorem c9_serialized_witness :
    Serialized (serveProcess [([70], nullProcedure)])
      (SrvSys.log ⟨[], 0, [], [], .idle,
        [.flush (encodeValue false (.str [])).1, .dequeue (clientRequest [70] []).1,
         .flush (encodeValue false (.str [])).1, .dequeue (clientRequest [70] []).1]⟩) := by
  have hwf : ∀ r ∈ [(clientRequest [70] []).1, (clientRequest [70] []).1],
      WellFormedCall [([70], nullProcedure)] r := by
    intro r hr
    have hre : r = (clientRequest [70] []).1 := by
      rcases List.mem_cons.mp hr with h | h
      · exact h
      · rcases List.mem_cons.mp h with h' | h'
        · exact h'
        · exact absurd h' (List.not_mem_nil r)
    subst hre
    refine ⟨[70], [], nullProcedure, rfl, by decide, rfl, rfl, ?_, ?_⟩
    · intro a ha
      exact absurd ha (List.not_mem_nil a)
    · intro outs hh
      have hh' : (([] : List GoVal), (none : Option (List Nat))) = (outs, none) := hh
      injection hh' with h1 h2
      rw [← h1]
      rfl
  exact c9_serialized [([70], nullProcedure)]
    [(clientRequest [70] []).1, (clientRequest [70] []).1]
    ⟨[], 0, [], [], .idle,
      [.flush (encodeValue false (.str [])).1, .dequeue (clientRequest [70] []).1,
       .flush (encodeValue false (.str [])).1, .dequeue (clientRequest [70] []).1]⟩
    hwf
    (SrvReach.step _ _
      (SrvReach.step _ _
        (SrvReach.step _ _
          (SrvReach.step _ _ SrvReach.init
            (SrvStep.iterFlush [(clientRequest [70] []).1, (clientRequest [70] []).1]
              [(clientRequest [70] []).1] [(clientRequest [70] []).1] 0 [] [] []
              (encodeValue false (.str [])).1 ⟨[], [], 1, false⟩
              (List.Perm.refl _) rfl rfl rfl))
          (SrvStep.reply [(clientRequest [70] []).1] 1 [] []
            [SrvEvent.dequeue (clientRequest [70] []).1]
            (encodeValue false (.str [])).1 Nat.one_pos))
        (SrvStep.iterFlush [(clientRequest [70] []).1] [] [(clientRequest [70] []).1] 0
          [] []
          [SrvEvent.flush (encodeValue false (.str [])).1,
           SrvEvent.dequeue (clientRequest [70] []).1]
          (encodeValue false (.str [])).1 ⟨[], [], 1, false⟩
          (List.Perm.refl _) rfl rfl rfl))
      (SrvStep.reply [] 1 [] []
        [SrvEvent.dequeue (clientRequest [70] []).1,
         SrvEvent.flush (encodeValue false (.str [])).1,
         SrvEvent.dequeue (clientRequest [70] []).1]
        (encodeValue false (.str [])).1 Nat.one_pos))
